import Mathlib

/-!
Verification development for the pillbug thread-reconstruction core
(`src/views/postpage.tsx`) and the default feed-rule presets
(`src/components/feed/index.tsx`).

The TypeScript code builds a tree of `IPostTreeNode` objects by mutating a
shared heap: an `idMap : Map<string, IPostTreeNode>` holds references to
nodes, and attaching a post pushes a fresh node into the `children` array of
the node the map points to.  We embed this reference semantics with an
explicit state:

* the tree under the provisional root is an inductive `PTree`;
* nodes are addressed by paths (`List Nat`, indices into `children`);
* `PostTreePlaceholderNode`s created by `attachStatusesToTree` are never
  pushed into any `children` array in the source (line 268 pushes the bare
  `statusNode`), so they are only reachable through `idMap`; we keep them in
  a separate `detached` list and let a `Loc` point either into the main tree
  or into a detached placeholder tree.

Paths stay valid because the code only ever *appends* to `children`
(existing indices never shift); the one place the root changes
(`locateRootNode` wrapping the old root) is modelled by prefixing `0` to
every main-tree path, since the old root becomes child `0` of the new root.

One sharing subtlety: in the placeholder branch (source lines 259-269) the
same `statusNode` object is both the sole child of the new placeholder and
pushed into the root's children.  In the model the two occurrences are two
copies.  This is observationally exact: no `idMap` entry ever designates
that node (the popped status's id is mapped to the placeholder itself), and
every later mutation goes through an `idMap` lookup, so neither copy is
ever mutated after creation.
-/

set_option autoImplicit false

namespace Pillbug

/-- A megalodon `Status`, restricted to the fields the thread builder reads:
`id`, `in_reply_to_id`, and `reblog` (of which only `reblog?.id` is read, so
we store that id directly). -/
structure Status where
  id : String
  in_reply_to_id : Option String
  reblog : Option String := none
  deriving DecidableEq, Repr

/-- A node of the reconstructed conversation tree (`IPostTreeNode`): either a
`PostTreeStatusNode` wrapping a status or a `PostTreePlaceholderNode`
carrying a message.  Both have an ordered `children` list and a
`highlighted` flag. -/
inductive PTree where
  | status (status : Status) (children : List PTree) (highlighted : Bool)
  | placeholder (message : String) (children : List PTree) (highlighted : Bool)
  deriving Repr

/-- The `children` field shared by both node variants. -/
def PTree.children : PTree → List PTree
  | .status _ cs _ => cs
  | .placeholder _ cs _ => cs

/-- Replace the `children` field, keeping the rest of the node. -/
def PTree.withChildren : PTree → List PTree → PTree
  | .status s _ hl, cs => .status s cs hl
  | .placeholder m _ hl, cs => .placeholder m cs hl

/-- The node's `tryGetStatus()`: the wrapped status for a status node,
`undefined` for a placeholder. -/
def PTree.tryGetStatus : PTree → Option Status
  | .status s _ _ => some s
  | .placeholder _ _ _ => none

/-- An address of a node held in `idMap`.  `owner = none` addresses a node of
the main tree (the tree under the provisional root); `owner = some j`
addresses a node inside the `j`-th detached placeholder tree.  `path` lists
child indices from that tree's root. -/
structure Loc where
  owner : Option Nat
  path : List Nat
  deriving DecidableEq, Repr

/-- The mutable state of one `fetchPostInfoTree` full build: the tree under
the provisional root (`rootPost`), the placeholder trees that were created
but never attached, the `idMap`, and the `unsortedStatuses` pool. -/
structure BuildState where
  main : PTree
  detached : List PTree
  idMap : List (String × Loc)
  pool : List Status

/-- `Map.get`: the most recent `set` wins, and `set` is modelled by consing,
so we return the first binding. -/
def lookupId : List (String × Loc) → String → Option Loc
  | [], _ => none
  | (k, v) :: rest, x => if k = x then some v else lookupId rest x

/-- The subtree of `t` addressed by a path of child indices. -/
def subtreeAt : PTree → List Nat → Option PTree
  | t, [] => some t
  | t, i :: p =>
    match t.children[i]? with
    | some c => subtreeAt c p
    | none => none

/-- Push `n` at the end of the `children` of the node of `t` addressed by
`p` (a no-op when the path is dangling, which the builder never produces). -/
def appendChildAt : PTree → List Nat → PTree → PTree
  | t, [], n => t.withChildren (t.children ++ [n])
  | t, i :: p, n =>
    match t.children[i]? with
    | some c => t.withChildren (t.children.set i (appendChildAt c p n))
    | none => t

/-- Number of children of the node addressed by `loc` (the index the next
appended child will receive). -/
def childCountAtLoc (st : BuildState) (loc : Loc) : Nat :=
  match loc.owner with
  | none => ((subtreeAt st.main loc.path).map (fun t => t.children.length)).getD 0
  | some j =>
    match st.detached[j]? with
    | some dt => ((subtreeAt dt loc.path).map (fun t => t.children.length)).getD 0
    | none => 0

/-- `«node at loc».children.push(n)` on the state. -/
def appendAtLoc (st : BuildState) (loc : Loc) (n : PTree) : BuildState :=
  match loc.owner with
  | none => { st with main := appendChildAt st.main loc.path n }
  | some j =>
    match st.detached[j]? with
    | some dt => { st with detached := st.detached.set j (appendChildAt dt loc.path n) }
    | none => st

/-! ### locateRootNode (source lines 181-219) -/

/-- `findIndex`: index of the first element satisfying the predicate. -/
def findIdxO (p : Status → Bool) : List Status → Option Nat
  | [] => none
  | s :: rest => if p s then some 0 else (findIdxO p rest).map (· + 1)

/-- `splice(i, 1)`: remove the element at index `i`. -/
def removeAt : List Status → Nat → List Status
  | [], _ => []
  | _ :: rest, 0 => rest
  | s :: rest, n + 1 => s :: removeAt rest n

/-- `(rootPost as PostTreeStatusNode).status.in_reply_to_id` for the current
provisional root.  The cast is sound in the source because the root is
always a status node; a placeholder root yields `none`, which makes the
search fail exactly as `findIndex` on `undefined` would. -/
def rootReplyTarget (st : BuildState) : Option String :=
  match st.main with
  | .status s _ _ => s.in_reply_to_id
  | .placeholder _ _ _ => none

/-- One test of the `while` condition of `locateRootNode`: the guard reads
`status.in_reply_to_id` of the **requested** status (the local `status` is
never reassigned in the source), and the `findIndex` uses the **current**
root's `in_reply_to_id`.  Returns the index of the parent to splice in, or
`none` when the loop exits. -/
def locateRootFind (requestedStatus : Status) (st : BuildState) : Option Nat :=
  if requestedStatus.in_reply_to_id = none then none
  else
    match rootReplyTarget st with
    | none => none
    | some pid => findIdxO (fun s => s.id = pid) st.pool

/-- The body of one `locateRootNode` loop iteration: splice the parent out of
the pool, wrap it around the current root
(`new PostTreeStatusNode(newRootStatus, [rootPost])`), and
`idMap.set(status.id, rootPost)` — the key is the **requested** status's id
(the source never rekeys by the ancestor's id).  Wrapping makes the old root
child `0` of the new root, so every main-tree path in `idMap` gains a
leading `0`. -/
def wrapStep (requestedStatus : Status) (st : BuildState) (idx : Nat) : BuildState :=
  match st.pool[idx]? with
  | none => st
  | some newRootStatus =>
    { st with
      pool := removeAt st.pool idx
      main := .status newRootStatus [st.main] false
      idMap := (requestedStatus.id, ⟨none, []⟩) ::
        st.idMap.map (fun kl =>
          match kl.2.owner with
          | none => (kl.1, ⟨none, 0 :: kl.2.path⟩)
          | some _ => kl) }

/-- The `while (status.in_reply_to_id !== null)` loop of `locateRootNode`,
with explicit fuel.  Each executed iteration splices one element out of the
pool, so `pool.length` fuel always suffices (proved below); running out of
fuel yields `none`. -/
def locateRootLoop : Nat → Status → BuildState → Option BuildState
  | 0, requestedStatus, st =>
    match locateRootFind requestedStatus st with
    | none => some st
    | some _ => none
  | fuel + 1, requestedStatus, st =>
    match locateRootFind requestedStatus st with
    | none => some st
    | some idx => locateRootLoop fuel requestedStatus (wrapStep requestedStatus st idx)

/-- The state at entry of `locateRootNode`: `rootPost` is a highlighted
status node for the requested status and `idMap.set(requestedStatus.id,
rootPost)` has run. -/
def initBuildState (requestedStatus : Status) (pool : List Status) : BuildState :=
  { main := .status requestedStatus [] true
    detached := []
    idMap := [(requestedStatus.id, ⟨none, []⟩)]
    pool := pool }

/-- `locateRootNode` (source lines 181-219). -/
def locateRootNode (requestedStatus : Status) (pool : List Status) : BuildState :=
  (locateRootLoop pool.length requestedStatus (initBuildState requestedStatus pool)).getD
    (initBuildState requestedStatus pool)

/-! ### attachStatusesToTree (source lines 221-271) -/

/-- One examination of `unsortedStatuses[i]` in the inner `for` loop: a
status with `in_reply_to_id === null` is attached under the root (lines
234-242); one whose parent id is in `idMap` is attached under that node
(lines 243-252); otherwise nothing happens (`none`).  As in the source, the
fresh node is indexed (`idMap.set(status.id, s)`) and then pushed; its
address is the parent's child count before the push.  The `pool` field is
not touched here — pool bookkeeping (`splice`) lives in `attachPassS`. -/
def attachOne (st : BuildState) (status : Status) : Option BuildState :=
  match status.in_reply_to_id with
  | none =>
    some { st with
      main := appendChildAt st.main [] (.status status [] false)
      idMap := (status.id, ⟨none, [st.main.children.length]⟩) :: st.idMap }
  | some pid =>
    match lookupId st.idMap pid with
    | none => none
    | some parentLoc =>
      let childLoc : Loc := ⟨parentLoc.owner, parentLoc.path ++ [childCountAtLoc st parentLoc]⟩
      some (appendAtLoc { st with idMap := (status.id, childLoc) :: st.idMap }
        parentLoc (.status status [] false))

/-- The inner `for (let i = 0; ...; i++)` pass (source lines 232-253), with
the array iteration made explicit: `done` holds the elements already passed
over (kept in the pool, original order) and `todo` the ones not yet
reached.  `splice(i, 1)` followed by `continue`/`i++` removes the current
element **and skips the element that shifts into slot `i`**, hence after an
attachment the next `todo` element moves unexamined into `done`.  At the end
the pool is exactly `done`. -/
def attachPassS (st : BuildState) (done : List Status) (numAdded : Nat) :
    List Status → BuildState × Nat
  | [] => ({ st with pool := done }, numAdded)
  | status :: rest =>
    match attachOne st status with
    | some st' =>
      match rest with
      | [] => ({ st' with pool := done }, numAdded + 1)
      | skipped :: rest' => attachPassS st' (done ++ [skipped]) (numAdded + 1) rest'
    | none => attachPassS st (done ++ [status]) numAdded rest

/-- One full pass over the pool starting at `i = 0` with `numAdded = 0`. -/
def attachPassRun (st : BuildState) : BuildState × Nat :=
  attachPassS st [] 0 st.pool

/-- Template-literal rendering of `status?.in_reply_to_id` (JavaScript
stringifies `null`). -/
def optIdStr : Option String → String
  | some s => s
  | none => "null"

/-- The `numAdded === 0` branch (source lines 259-269): `pop()` the last
pool element, build a status node for it, build a `PostTreePlaceholderNode`
with message `"Missing post id <in_reply_to_id>"` holding that status node
as its only child, map the popped id to the **placeholder**, and push the
**status node** (not the placeholder) under the root.  The placeholder is
never pushed anywhere, so it stays detached. -/
def placeholderStep (st : BuildState) : BuildState :=
  match st.pool.getLast? with
  | none => st
  | some status =>
    let statusNode : PTree := .status status [] false
    let missingPostMarker : PTree :=
      .placeholder ("Missing post id " ++ optIdStr status.in_reply_to_id) [statusNode] false
    { st with
      pool := st.pool.dropLast
      detached := st.detached ++ [missingPostMarker]
      idMap := (status.id, ⟨some st.detached.length, []⟩) :: st.idMap
      main := appendChildAt st.main [] statusNode }

/-- The outer `while (unsortedStatuses.length > 0)` loop of
`attachStatusesToTree` (source lines 229-270), with explicit fuel.  Every
executed iteration shrinks the pool (the pass attached `numAdded ≥ 1`
elements, or one element is popped for placeholder handling), so
`pool.length` fuel always suffices (proved below). -/
def attachLoop : Nat → BuildState → Option BuildState
  | 0, st => if st.pool = [] then some st else none
  | fuel + 1, st =>
    if st.pool = [] then some st
    else if (attachPassRun st).1.pool = [] then some (attachPassRun st).1
    else if (attachPassRun st).2 = 0 then attachLoop fuel (placeholderStep (attachPassRun st).1)
    else attachLoop fuel (attachPassRun st).1

/-- `attachStatusesToTree` (source lines 221-271), run with sufficient fuel. -/
def attachStatusesToTree (st : BuildState) : BuildState :=
  (attachLoop st.pool.length st).getD st

/-! ### the full build inside fetchPostInfoTree (source lines 125-176) -/

/-- The full-build path of `fetchPostInfoTree` after the context fetch
succeeded (source lines 136-150): pool the ancestors then the descendants,
locate the root, attach the rest.  The spec calls this composite
`buildThreadTree`.  The result state's `main` is the returned root. -/
def buildThreadState (requestedStatus : Status) (ancestors descendants : List Status) :
    BuildState :=
  attachStatusesToTree (locateRootNode requestedStatus (ancestors ++ descendants))

/-- The tree returned by the full build (`buildThreadTree` in the spec). -/
def buildThreadTree (requestedStatus : Status) (ancestors descendants : List Status) : PTree :=
  (buildThreadState requestedStatus ancestors descendants).main

/-- `requestedStatus.reblog?.id ?? requestedStatus.id` (source line 127). -/
def postIdForContext (requestedStatus : Status) : String :=
  (requestedStatus.reblog).getD requestedStatus.id

/-- The `try/catch` of `fetchPostInfoTree`'s full-build branch (source lines
125-176).  The context fetch (`getStatusContext` plus `unwrapResponse` plus
the `undefined` check) is abstracted as a function returning either the
`(ancestors, descendants)` pair or an error message; the `catch` branch
builds a highlighted status node for the requested status whose single
child is a placeholder describing the failure. -/
def fetchPostInfoTree (postId : String) (requestedStatus : Status)
    (getStatusContext : String → Except String (List Status × List Status)) : PTree :=
  match getStatusContext (postIdForContext requestedStatus) with
  | .ok ctx => buildThreadTree requestedStatus ctx.1 ctx.2
  | .error msg =>
    .status requestedStatus
      [.placeholder ("Failed to get context for post " ++ postId ++ ": " ++ msg) [] false]
      true

/-! ### the incremental patch branch (source lines 70-117) -/

/-- The node pushed for a newly created reply:
`new PostTreeStatusNode(newComment, [], true)`. -/
def mkNewReplyNode (newComment : Status) : PTree :=
  .status newComment [] true

mutual
/-- `tryAttachTo` (source lines 76-98): walk the tree depth-first; a status
node whose id was already visited raises (`throw new Error`, modelled by
`Except.error`, propagated outward by the matches below); a status node
whose id equals `targetId` gets the new highlighted node appended to its
children and is not descended into; otherwise the children are walked in
order.  Returns the updated node, the visited list, and the success flag
(the source's `success` is an OR over the whole walk — siblings are still
walked after a match). -/
def tryAttachTo (newComment : Status) (targetId : Option String) (node : PTree)
    (visited : List String) : Except String (PTree × List String × Bool) :=
  match node with
  | .status s cs hl =>
    if s.id ∈ visited then
      .error ("visited the same status " ++ s.id ++ " twice.")
    else
      if some s.id = targetId then
        .ok (.status s (cs ++ [mkNewReplyNode newComment]) hl, visited ++ [s.id], true)
      else
        match tryAttachChildren newComment targetId cs (visited ++ [s.id]) with
        | .error e => .error e
        | .ok r => .ok (.status s r.1 hl, r.2.1, r.2.2)
  | .placeholder m cs hl =>
    match tryAttachChildren newComment targetId cs visited with
    | .error e => .error e
    | .ok r => .ok (.placeholder m r.1 hl, r.2.1, r.2.2)

/-- The `for (const child of node.children)` walk, threading the visited
list and OR-ing the success flags. -/
def tryAttachChildren (newComment : Status) (targetId : Option String) (cs : List PTree)
    (visited : List String) : Except String (List PTree × List String × Bool) :=
  match cs with
  | [] => .ok ([], visited, false)
  | c :: rest =>
    match tryAttachTo newComment targetId c visited with
    | .error e => .error e
    | .ok rc =>
      match tryAttachChildren newComment targetId rest rc.2.1 with
      | .error e => .error e
      | .ok rr => .ok (rc.1 :: rr.1, rr.2.1, rc.2.2 || rr.2.2)
end

/-- The incremental patch branch of `fetchPostInfoTree` (source lines
70-117), the spec's `patchNewReply`: try to attach the new comment at the
node wrapping `newComment.in_reply_to_id`; when no attachment point was
found, push the new node under the tree root instead. -/
def patchNewReply (previousTree : PTree) (newComment : Status) : Except String PTree :=
  match tryAttachTo newComment newComment.in_reply_to_id previousTree [] with
  | .error e => .error e
  | .ok r =>
    if r.2.2 then
      .ok r.1
    else
      .ok (r.1.withChildren (r.1.children ++ [mkNewReplyNode newComment]))

/-! ### observers of the built tree -/

mutual
/-- Pre-order list of the ids of the status nodes of a tree. -/
def treeStatusIds : PTree → List String
  | .status s cs _ => s.id :: forestStatusIds cs
  | .placeholder _ cs _ => forestStatusIds cs

/-- Pre-order ids of a forest. -/
def forestStatusIds : List PTree → List String
  | [] => []
  | c :: rest => treeStatusIds c ++ forestStatusIds rest
end

mutual
/-- Number of placeholder nodes in a tree. -/
def placeholderCount : PTree → Nat
  | .status _ cs _ => forestPlaceholderCount cs
  | .placeholder _ cs _ => forestPlaceholderCount cs + 1

/-- Number of placeholder nodes in a forest. -/
def forestPlaceholderCount : List PTree → Nat
  | [] => 0
  | c :: rest => placeholderCount c + forestPlaceholderCount rest
end

mutual
/-- The parent/child relationships of a tree, as pairs of status ids: for
every status node with id `p` and every status-node child with id `c`, the
pair `(p, c)`. -/
def treeEdges : PTree → List (String × String)
  | .status s cs _ =>
    cs.filterMap (fun c => (c.tryGetStatus).map (fun cst => (s.id, cst.id))) ++ forestEdges cs
  | .placeholder _ cs _ => forestEdges cs

/-- Edges of a forest. -/
def forestEdges : List PTree → List (String × String)
  | [] => []
  | c :: rest => treeEdges c ++ forestEdges rest
end

/-- Messages of the placeholder roots of a list of trees (used to observe
the detached placeholders). -/
def phMessages (l : List PTree) : List String :=
  l.filterMap (fun t =>
    match t with
    | .placeholder m _ _ => some m
    | _ => none)

/-! ### specification-side notions used to state the claims -/

/-- One topological check of a pool ordering: every post's `in_reply_to_id`
names an id that is available before it (`avail` starts as the requested
post's id and grows with each post's own id).  The existence of such an
ordering of the pool is the acyclicity of the reply relation rooted at the
requested post. -/
def topoOKb (avail : List String) : List Status → Bool
  | [] => true
  | p :: rest =>
    (match p.in_reply_to_id with
     | some pid => avail.contains pid
     | none => false) && topoOKb (p.id :: avail) rest

/-- The hypothesis of the resolvable-pool claims: every pool post replies to
some other pool post or to the requested post (the claim's own condition),
and the reply relation is acyclic — the pool admits an ordering in which
every post's parent appears earlier, and the requested post's own parent is
not in the pool (otherwise the upward chain closes a cycle). -/
def CleanInput (requestedStatus : Status) (pool : List Status) : Prop :=
  (∀ p ∈ pool, p.in_reply_to_id ≠ none ∧
      (p.in_reply_to_id = some requestedStatus.id ∨
        ∃ q ∈ pool, some q.id = p.in_reply_to_id ∧ q ≠ p)) ∧
  (∃ pool', pool'.Perm pool ∧ topoOKb [requestedStatus.id] pool' = true) ∧
  (∀ p ∈ pool, requestedStatus.in_reply_to_id ≠ some p.id)

mutual
/-- The transformation the patch claim describes: append `nw` at the end of
the children of the node whose wrapped status has id matching `targetId`,
leave everything else unchanged, and do not descend into a matching node. -/
def attachAt (targetId : Option String) (nw : PTree) : PTree → PTree
  | .status s cs hl =>
    if some s.id = targetId then .status s (cs ++ [nw]) hl
    else .status s (attachAtForest targetId nw cs) hl
  | .placeholder m cs hl => .placeholder m (attachAtForest targetId nw cs) hl

/-- `attachAt` mapped over a forest. -/
def attachAtForest (targetId : Option String) (nw : PTree) : List PTree → List PTree
  | [] => []
  | c :: rest => attachAt targetId nw c :: attachAtForest targetId nw rest
end

/-- `AppendOne nw t t'` says `t'` is `t` with `nw` appended at the end of
the children of exactly one node: every node keeps its wrapped status or
message and its `highlighted` flag, the children of every node but one are
unchanged, and that one node's children gain exactly `nw`, at the end. -/
inductive AppendOne (nw : PTree) : PTree → PTree → Prop where
  | hereStatus (s : Status) (cs : List PTree) (hl : Bool) :
      AppendOne nw (.status s cs hl) (.status s (cs ++ [nw]) hl)
  | herePlaceholder (m : String) (cs : List PTree) (hl : Bool) :
      AppendOne nw (.placeholder m cs hl) (.placeholder m (cs ++ [nw]) hl)
  | deeperStatus (s : Status) (hl : Bool) (l r : List PTree) (c c' : PTree) :
      AppendOne nw c c' →
      AppendOne nw (.status s (l ++ c :: r) hl) (.status s (l ++ c' :: r) hl)
  | deeperPlaceholder (m : String) (hl : Bool) (l r : List PTree) (c c' : PTree) :
      AppendOne nw c c' →
      AppendOne nw (.placeholder m (l ++ c :: r) hl) (.placeholder m (l ++ c' :: r) hl)

/-! ### default feed-rule presets (`src/components/feed/index.tsx`) -/

/-- One atomic clause of a rule condition, as passed to
`FeedRuleProperties`: a fact name, an operator, an optional nested field
path, and a literal value (`none` models the JSON `null`). -/
structure FeedRuleCondition where
  fact : String
  operator : String
  path : Option String := none
  value : Option String
  deriving DecidableEq, Repr

/-- The condition object `{ all: [...] }`: a conjunction of atomic clauses. -/
structure FeedRuleConditions where
  all : List FeedRuleCondition
  deriving DecidableEq, Repr

/-- The `params` object of an action (`{ label: "pillbug" }`). -/
structure FeedRuleActionParams where
  label : String
  deriving DecidableEq, Repr

/-- An action descriptor: `{ type: "hidePost" | "attachLinked" | "applyLabel",
params? }`. -/
structure FeedRuleAction where
  type : String
  params : Option FeedRuleActionParams := none
  deriving DecidableEq, Repr

/-- Modelled from the spec: the `FeedRuleProperties` class is defined in
`feed-engine.tsx`, which is not among the available sources.  Per spec §3 a
feed rule carries a name (for diagnostics), a condition expression, and an
action descriptor, matching the constructor calls
`new FeedRuleProperties(name, conditions, action)` in `feed/index.tsx`. -/
structure FeedRuleProperties where
  name : String
  conditions : FeedRuleConditions
  action : FeedRuleAction
  deriving DecidableEq, Repr

/-- `defaultHomeFeedRules` (source `feed/index.tsx` lines 120-147). -/
def defaultHomeFeedRules : List FeedRuleProperties :=
  [⟨"hide replies from feed",
    ⟨[{ fact := "in_reply_to_id", operator := "notEqual", value := none }]⟩,
    { type := "hidePost" }⟩,
   ⟨"attach linked ancestor posts to all posts when available",
    ⟨[{ fact := "id", operator := "notEqual", value := none }]⟩,
    { type := "attachLinked" }⟩]

/-- `defaultFeedRules` (source `feed/index.tsx` lines 149-191). -/
def defaultFeedRules : List FeedRuleProperties :=
  [⟨"hide replies from feed",
    ⟨[{ fact := "in_reply_to_id", operator := "notEqual", value := none }]⟩,
    { type := "hidePost" }⟩,
   ⟨"attach linked ancestor posts to all posts when available",
    ⟨[{ fact := "id", operator := "notEqual", value := none }]⟩,
    { type := "attachLinked" }⟩,
   ⟨"label posts written with pillbug",
    ⟨[{ fact := "application", operator := "equal", path := some "$.name",
        value := some "pillbug" }]⟩,
    { type := "applyLabel", params := some ⟨"pillbug"⟩ }⟩]

/-! ### concrete inputs used by counterexamples and witnesses -/

/-- A requested post with no parent. -/
def exP : Status := ⟨"P", none, none⟩

/-- A post replying to an id (`"M"`) absent from everything. -/
def exA_M : Status := ⟨"A", some "M", none⟩

/-- Half of a pool reply cycle. -/
def exA_B : Status := ⟨"A", some "B", none⟩

/-- Other half of a pool reply cycle. -/
def exB_A : Status := ⟨"B", some "A", none⟩

/-- A requested post replying into the cycle. -/
def exP_A : Status := ⟨"P", some "A", none⟩

/-- A post whose id duplicates `exA_P`'s. -/
def exA_P : Status := ⟨"A", some "P", none⟩

/-- A post replying to the unresolvable `exA_M`. -/
def exC_A : Status := ⟨"C", some "A", none⟩

/-- A post replying to the requested post `exP`. -/
def exR_P : Status := ⟨"R", some "P", none⟩

/-- A post replying to `exR_P`. -/
def exS_R : Status := ⟨"S", some "R", none⟩

/-- A one-node tree whose status id is `"42"` (the spec's patch example). -/
def exTree42 : PTree := .status ⟨"42", none, none⟩ [] false

/-- A new reply to post `"42"`. -/
def exN42 : Status := ⟨"N", some "42", none⟩

/-- A two-node tree: root `Q` with child `R`. -/
def exTreeQR : PTree :=
  .status ⟨"Q", none, none⟩ [.status ⟨"R", some "Q", none⟩ [] false] true

/-- A new reply to post `"R"`. -/
def exN_R : Status := ⟨"N2", some "R", none⟩

/-- The parent id a pool post names (`""` never occurs on resolvable pools,
where `in_reply_to_id` is always present). -/
def parentIdOf (p : Status) : String :=
  p.in_reply_to_id.getD ""

/-- The `idMap` health invariant of clean (placeholder-free) runs: every
binding addresses a status node of the main tree whose wrapped status has
the bound id. -/
def IdMapOK (st : BuildState) : Prop :=
  ∀ k loc, (k, loc) ∈ st.idMap → loc.owner = none ∧
    ∃ s cs hl, subtreeAt st.main loc.path = some (.status s cs hl) ∧ s.id = k

/-! ## Basic lemmas about the list helpers -/

theorem findIdxO_lt {p : Status → Bool} :
    ∀ {l : List Status} {i : Nat}, findIdxO p l = some i → i < l.length := by
  intro l
  induction l with
  | nil => intro i h; simp [findIdxO] at h
  | cons s rest ih =>
    intro i h
    simp only [findIdxO] at h
    split at h
    · cases h; simp
    · cases hr : findIdxO p rest with
      | none => rw [hr] at h; cases h
      | some j =>
        rw [hr] at h
        cases h
        simpa using Nat.succ_lt_succ (ih hr)

theorem removeAt_length :
    ∀ {l : List Status} {i : Nat}, i < l.length → (removeAt l i).length + 1 = l.length := by
  intro l
  induction l with
  | nil => intro i h; cases h
  | cons s rest ih =>
    intro i h
    cases i with
    | zero => simp [removeAt]
    | succ j =>
      have := ih (Nat.lt_of_succ_lt_succ (by simpa using h))
      simp only [removeAt, List.length_cons]
      omega

theorem removeAt_perm :
    ∀ {l : List Status} {i : Nat} {x : Status}, l[i]? = some x →
      l.Perm (x :: removeAt l i) := by
  intro l
  induction l with
  | nil => intro i x h; cases h
  | cons s rest ih =>
    intro i x h
    cases i with
    | zero =>
      simp only [List.getElem?_cons_zero, Option.some_inj] at h
      subst h
      simp [removeAt]
    | succ j =>
      simp only [List.getElem?_cons_succ] at h
      have h1 := ih h
      show (s :: rest).Perm (x :: s :: removeAt rest j)
      exact (h1.cons s).trans (List.Perm.swap x s _)

theorem option_isSome_exists {α : Type} {o : Option α} (h : o.isSome) : ∃ a, o = some a := by
  cases o with
  | none => cases h
  | some a => exact ⟨a, rfl⟩

/-! ## Termination of the root-location loop -/

theorem locateRootFind_lt {req : Status} {st : BuildState} {idx : Nat}
    (h : locateRootFind req st = some idx) : idx < st.pool.length := by
  unfold locateRootFind at h
  split at h
  · cases h
  · cases hr : rootReplyTarget st with
    | none => rw [hr] at h; cases h
    | some pid => rw [hr] at h; exact findIdxO_lt h

theorem wrapStep_pool_length {req : Status} {st : BuildState} {idx : Nat}
    (h : idx < st.pool.length) : (wrapStep req st idx).pool.length + 1 = st.pool.length := by
  unfold wrapStep
  rw [List.getElem?_eq_getElem h]
  simpa using removeAt_length h

/-- The upward walk of `locateRootNode` terminates on every input: each
executed iteration splices one post out of the pool, so `pool.length` fuel
is always enough. -/
theorem locateRootLoop_isSome :
    ∀ (fuel : Nat) (req : Status) (st : BuildState), st.pool.length ≤ fuel →
      (locateRootLoop fuel req st).isSome := by
  intro fuel
  induction fuel with
  | zero =>
    intro req st h
    have hp : st.pool = [] := List.length_eq_zero.mp (Nat.le_zero.mp h)
    have hf : locateRootFind req st = none := by
      unfold locateRootFind
      split
      · rfl
      · cases hr : rootReplyTarget st <;> simp [hp, findIdxO]
    simp [locateRootLoop, hf]
  | succ fuel ih =>
    intro req st h
    cases hf : locateRootFind req st with
    | none => simp [locateRootLoop, hf]
    | some idx =>
      have hlt := locateRootFind_lt hf
      have hw := @wrapStep_pool_length req st idx hlt
      simp only [locateRootLoop, hf]
      exact ih req _ (by omega)

theorem locateRootNode_eq_loop (req : Status) (pool : List Status) :
    locateRootLoop pool.length req (initBuildState req pool) = some (locateRootNode req pool) := by
  obtain ⟨st, hst⟩ := option_isSome_exists
    (locateRootLoop_isSome pool.length req (initBuildState req pool) (by simp [initBuildState]))
  rw [locateRootNode, hst]
  rfl

/-! ## Termination of the attachment loop -/

theorem attachPassS_len (st : BuildState) (done : List Status) (n : Nat) (todo : List Status) :
    (attachPassS st done n todo).1.pool.length + (attachPassS st done n todo).2 =
      done.length + todo.length + n := by
  induction st, done, n, todo using attachPassS.induct <;>
    simp_all [attachPassS] <;> omega

theorem placeholderStep_pool_length {st : BuildState} (h : st.pool ≠ []) :
    (placeholderStep st).pool.length + 1 = st.pool.length := by
  unfold placeholderStep
  obtain ⟨x, hx⟩ := option_isSome_exists (List.getLast?_isSome.mpr h)
  rw [hx]
  have : st.pool.length ≠ 0 := fun h0 => h (List.length_eq_zero.mp h0)
  simp only [List.length_dropLast]
  omega

/-- The attachment loop of `attachStatusesToTree` terminates on every input:
every executed iteration shrinks the pool (by `numAdded` when a pass
attached anything, by one popped post otherwise), so `pool.length` fuel is
always enough. -/
theorem attachLoop_isSome :
    ∀ (fuel : Nat) (st : BuildState), st.pool.length ≤ fuel → (attachLoop fuel st).isSome := by
  intro fuel
  induction fuel with
  | zero =>
    intro st h
    simp [attachLoop, List.length_eq_zero.mp (Nat.le_zero.mp h)]
  | succ fuel ih =>
    intro st h
    by_cases hp : st.pool = []
    · simp [attachLoop, hp]
    · have hlen := attachPassS_len st [] 0 st.pool
      by_cases h1 : (attachPassRun st).1.pool = []
      · simp [attachLoop, hp, h1]
      · have hpos : 0 < st.pool.length :=
          List.length_pos.mpr hp
        by_cases h2 : (attachPassRun st).2 = 0
        · have hlen2 : (attachPassRun st).1.pool.length = st.pool.length := by
            have : (attachPassRun st).1.pool.length + (attachPassRun st).2 = st.pool.length := by
              simpa [attachPassRun] using hlen
            omega
          have hstep := placeholderStep_pool_length h1
          simp only [attachLoop, if_neg hp, if_neg h1, h2, if_pos rfl]
          exact ih _ (by omega)
        · have : (attachPassRun st).1.pool.length + (attachPassRun st).2 = st.pool.length := by
            simpa [attachPassRun] using hlen
          simp only [attachLoop, if_neg hp, if_neg h1, if_neg h2]
          exact ih _ (by omega)

theorem attachLoop_pool_nil :
    ∀ (fuel : Nat) (st st' : BuildState), attachLoop fuel st = some st' → st'.pool = [] := by
  intro fuel
  induction fuel with
  | zero =>
    intro st st' h
    simp only [attachLoop] at h
    split at h
    · cases h; assumption
    · cases h
  | succ fuel ih =>
    intro st st' h
    simp only [attachLoop] at h
    split at h
    · cases h; assumption
    · split at h
      · cases h; assumption
      · split at h
        · exact ih _ _ h
        · exact ih _ _ h

theorem attachStatusesToTree_eq_loop (st : BuildState) :
    attachLoop st.pool.length st = some (attachStatusesToTree st) := by
  obtain ⟨st', hst⟩ := option_isSome_exists (attachLoop_isSome st.pool.length st (Nat.le_refl _))
  rw [attachStatusesToTree, hst]
  rfl

/-! ## Observer lemmas for child appends -/

theorem forestStatusIds_append (l₁ l₂ : List PTree) :
    forestStatusIds (l₁ ++ l₂) = forestStatusIds l₁ ++ forestStatusIds l₂ := by
  induction l₁ with
  | nil => simp [forestStatusIds]
  | cons c rest ih => simp [forestStatusIds, ih]

theorem withChildren_children (t : PTree) : t.withChildren t.children = t := by
  cases t <;> rfl

theorem list_set_self {α : Type} :
    ∀ (l : List α) (i : Nat) (c : α), l[i]? = some c → l.set i c = l := by
  intro l
  induction l with
  | nil => intro i c h; cases h
  | cons x rest ih =>
    intro i c h
    cases i with
    | zero => simp_all
    | succ j =>
      simp only [List.getElem?_cons_succ] at h
      simp [ih j c h]

theorem treeStatusIds_appendChildAt_root (t n : PTree) :
    treeStatusIds (appendChildAt t [] n) = treeStatusIds t ++ treeStatusIds n := by
  cases t <;>
    simp [appendChildAt, PTree.withChildren, PTree.children, treeStatusIds,
      forestStatusIds_append, forestStatusIds]

theorem forestStatusIds_set (i : Nat) :
    ∀ (cs : List PTree) (c c' : PTree), cs[i]? = some c →
      (forestStatusIds (cs.set i c') : Multiset String) + ↑(treeStatusIds c) =
        ↑(forestStatusIds cs) + ↑(treeStatusIds c') := by
  induction i with
  | zero =>
    intro cs c c' h
    cases cs with
    | nil => cases h
    | cons x rest =>
      simp only [List.getElem?_cons_zero, Option.some_inj] at h
      subst h
      show (forestStatusIds (c' :: rest) : Multiset String) + ↑(treeStatusIds x) =
        ↑(forestStatusIds (x :: rest)) + ↑(treeStatusIds c')
      simp only [forestStatusIds, ← Multiset.coe_add]
      abel
  | succ j ih =>
    intro cs c c' h
    cases cs with
    | nil => cases h
    | cons x rest =>
      simp only [List.getElem?_cons_succ] at h
      have hr := ih rest c c' h
      show (forestStatusIds (x :: rest.set j c') : Multiset String) + ↑(treeStatusIds c) =
        ↑(forestStatusIds (x :: rest)) + ↑(treeStatusIds c')
      simp only [forestStatusIds, ← Multiset.coe_add]
      rw [add_assoc, hr]
      abel

theorem treeStatusIds_appendChildAt (q : List Nat) :
    ∀ (t n : PTree), appendChildAt t q n = t ∨
      (treeStatusIds (appendChildAt t q n) : Multiset String) =
        ↑(treeStatusIds t) + ↑(treeStatusIds n) := by
  induction q with
  | nil =>
    intro t n
    right
    rw [treeStatusIds_appendChildAt_root, ← Multiset.coe_add]
  | cons i q ih =>
    intro t n
    cases hc : t.children[i]? with
    | none =>
      left
      simp only [appendChildAt, hc]
    | some c =>
      rcases ih c n with h | h
      · left
        simp only [appendChildAt, hc, h, list_set_self _ _ _ hc, withChildren_children]
      · right
        have hset := forestStatusIds_set i t.children c (appendChildAt c q n) hc
        rw [h] at hset
        have hf : (forestStatusIds (t.children.set i (appendChildAt c q n)) : Multiset String) =
            ↑(forestStatusIds t.children) + ↑(treeStatusIds n) := by
          have h2 : (forestStatusIds (t.children.set i (appendChildAt c q n)) : Multiset String)
              + ↑(treeStatusIds c) =
              (↑(forestStatusIds t.children) + ↑(treeStatusIds n)) + ↑(treeStatusIds c) := by
            rw [hset]
            abel
          exact add_right_cancel h2
        cases t with
        | status s cs hl =>
          simp only [PTree.children] at hc hf
          simp only [appendChildAt, PTree.children, hc, PTree.withChildren]
          simp only [treeStatusIds, ← Multiset.cons_coe, ← Multiset.singleton_add, hf]
          abel
        | placeholder m cs hl =>
          simp only [PTree.children] at hc hf
          simp only [appendChildAt, PTree.children, hc, PTree.withChildren]
          simp only [treeStatusIds, hf]

/-! ## The conserved id multiset: no post id is ever duplicated -/

/-- The ids in the tree under the root plus the ids still in the pool. -/
def idsMeasure (main : PTree) (pool : List Status) : Multiset String :=
  (treeStatusIds main : Multiset String) + ↑(pool.map (fun s => s.id))

theorem wrapStep_idsMeasure {req : Status} {st : BuildState} {idx : Nat}
    (h : idx < st.pool.length) :
    idsMeasure (wrapStep req st idx).main (wrapStep req st idx).pool =
      idsMeasure st.main st.pool := by
  have hget : st.pool[idx]? = some st.pool[idx] := List.getElem?_eq_getElem h
  have hm : (st.pool.map (fun s => s.id) : Multiset String) =
      ↑((st.pool[idx] :: removeAt st.pool idx).map (fun s => s.id)) := by
    rw [Multiset.coe_eq_coe]
    exact (removeAt_perm hget).map _
  unfold wrapStep
  rw [hget]
  simp only [idsMeasure, treeStatusIds, forestStatusIds, List.append_nil]
  rw [hm]
  simp only [List.map_cons, ← Multiset.cons_coe, ← Multiset.singleton_add]
  abel

theorem locateRootLoop_idsMeasure :
    ∀ (fuel : Nat) (req : Status) (st st' : BuildState),
      locateRootLoop fuel req st = some st' →
      idsMeasure st'.main st'.pool = idsMeasure st.main st.pool := by
  intro fuel
  induction fuel with
  | zero =>
    intro req st st' h
    simp only [locateRootLoop] at h
    split at h
    · cases h; rfl
    · cases h
  | succ fuel ih =>
    intro req st st' h
    simp only [locateRootLoop] at h
    cases hf : locateRootFind req st with
    | none => rw [hf] at h; cases h; rfl
    | some idx =>
      rw [hf] at h
      have := ih req _ _ h
      rw [this, wrapStep_idsMeasure (locateRootFind_lt hf)]

theorem appendAtLoc_main_owner_none {st : BuildState} {loc : Loc} {n : PTree}
    (h : loc.owner = none) : (appendAtLoc st loc n).main = appendChildAt st.main loc.path n := by
  obtain ⟨owner, path⟩ := loc
  have h' : owner = none := h
  subst h'
  rfl

theorem appendAtLoc_main_owner_some {st : BuildState} {loc : Loc} {n : PTree} {j : Nat}
    (h : loc.owner = some j) : (appendAtLoc st loc n).main = st.main := by
  obtain ⟨owner, path⟩ := loc
  have h' : owner = some j := h
  subst h'
  cases hd : st.detached[j]? <;> simp [appendAtLoc, hd]

theorem attachOne_ids_le {st : BuildState} {status : Status} {st' : BuildState}
    (h : attachOne st status = some st') :
    (treeStatusIds st'.main : Multiset String) ≤
      ↑(treeStatusIds st.main) + {status.id} := by
  unfold attachOne at h
  split at h
  · cases h
    apply le_of_eq
    rw [treeStatusIds_appendChildAt_root]
    show (↑(treeStatusIds st.main ++ treeStatusIds (.status status [] false)) :
      Multiset String) = _
    simp [treeStatusIds, forestStatusIds, ← Multiset.coe_add]
  · rename_i pid hpid
    cases hl : lookupId st.idMap pid with
    | none => rw [hl] at h; cases h
    | some parentLoc =>
      rw [hl] at h
      cases h
      cases ho : parentLoc.owner with
      | none =>
        rw [appendAtLoc_main_owner_none ho]
        rcases treeStatusIds_appendChildAt parentLoc.path st.main (.status status [] false)
          with heq | heq
        · rw [heq]
          exact Multiset.le_add_right _ _
        · rw [heq]
          apply le_of_eq
          simp [treeStatusIds, forestStatusIds]
      | some j =>
        rw [appendAtLoc_main_owner_some ho]
        exact Multiset.le_add_right _ _

theorem attachPassS_ids_le :
    ∀ (st : BuildState) (done : List Status) (n : Nat) (todo : List Status),
      idsMeasure (attachPassS st done n todo).1.main (attachPassS st done n todo).1.pool ≤
        idsMeasure st.main (done ++ todo) := by
  intro st done n todo
  induction st, done, n, todo using attachPassS.induct with
  | case1 st done n =>
    simp [attachPassS, idsMeasure]
  | case2 st done n status st' hone =>
    simp only [attachPassS, hone]
    have hle := attachOne_ids_le hone
    simp only [idsMeasure]
    refine le_trans (add_le_add_right hle _) (le_of_eq ?_)
    simp only [List.map_append, List.map_cons, List.map_nil, ← Multiset.coe_add,
      ← Multiset.cons_coe, ← Multiset.singleton_add, Multiset.coe_singleton]
    abel
  | case3 st done n status st' hone skipped rest' ih =>
    simp only [attachPassS, hone] at ih ⊢
    refine le_trans ih ?_
    have hle := attachOne_ids_le hone
    simp only [idsMeasure]
    refine le_trans (add_le_add_right hle _) (le_of_eq ?_)
    simp only [List.map_append, List.map_cons, List.map_nil, ← Multiset.coe_add,
      ← Multiset.cons_coe, ← Multiset.singleton_add, Multiset.coe_singleton]
    abel
  | case4 st done n status rest hone ih =>
    simp only [attachPassS, hone] at ih ⊢
    refine le_trans ih (le_of_eq ?_)
    simp only [idsMeasure, List.map_append, List.map_cons, List.map_nil, ← Multiset.coe_add,
      ← Multiset.cons_coe, ← Multiset.singleton_add, Multiset.coe_singleton]
    abel

theorem placeholderStep_ids_le (st : BuildState) :
    idsMeasure (placeholderStep st).main (placeholderStep st).pool ≤
      idsMeasure st.main st.pool := by
  cases hl : st.pool.getLast? with
  | none => simp [placeholderStep, hl]
  | some status =>
    have hsplit : st.pool.dropLast ++ [status] = st.pool :=
      List.dropLast_append_getLast? status (Option.mem_def.mpr hl)
    have hm : (st.pool.map (fun s => s.id) : Multiset String) =
        ↑((status :: st.pool.dropLast).map (fun s => s.id)) := by
      rw [Multiset.coe_eq_coe]
      refine (List.Perm.map _ ?_)
      conv_lhs => rw [← hsplit]
      exact List.perm_append_comm
    apply le_of_eq
    simp only [placeholderStep, hl, idsMeasure, treeStatusIds_appendChildAt_root]
    rw [hm]
    simp only [treeStatusIds, forestStatusIds, List.append_nil, List.map_cons,
      ← Multiset.coe_add, ← Multiset.cons_coe, ← Multiset.singleton_add]
    abel

theorem attachLoop_ids_le :
    ∀ (fuel : Nat) (st st' : BuildState), attachLoop fuel st = some st' →
      idsMeasure st'.main st'.pool ≤ idsMeasure st.main st.pool := by
  intro fuel
  induction fuel with
  | zero =>
    intro st st' h
    simp only [attachLoop] at h
    split at h
    · cases h; exact le_refl _
    · cases h
  | succ fuel ih =>
    intro st st' h
    simp only [attachLoop] at h
    split at h
    · cases h; exact le_refl _
    · have hpass : idsMeasure (attachPassRun st).1.main (attachPassRun st).1.pool ≤
          idsMeasure st.main st.pool := by
        simpa [attachPassRun] using attachPassS_ids_le st [] 0 st.pool
      split at h
      · cases h; exact hpass
      · split at h
        · exact le_trans (le_trans (ih _ _ h) (placeholderStep_ids_le _)) hpass
        · exact le_trans (ih _ _ h) hpass

/-- The ids of the returned tree form a sub-multiset of the input ids. -/
theorem buildThreadTree_ids_le (req : Status) (anc desc : List Status) :
    (treeStatusIds (buildThreadTree req anc desc) : Multiset String) ≤
      ↑(req.id :: (anc ++ desc).map (fun s => s.id)) := by
  have hloc := locateRootNode_eq_loop req (anc ++ desc)
  have h1 := locateRootLoop_idsMeasure _ req _ _ hloc
  have hatt := attachStatusesToTree_eq_loop (locateRootNode req (anc ++ desc))
  have h2 := attachLoop_ids_le _ _ _ hatt
  have h3 : idsMeasure (initBuildState req (anc ++ desc)).main
      (initBuildState req (anc ++ desc)).pool =
      ↑(req.id :: (anc ++ desc).map (fun s => s.id)) := by
    simp [idsMeasure, initBuildState, treeStatusIds, forestStatusIds, ← Multiset.cons_coe,
      Multiset.singleton_add]
  calc (treeStatusIds (buildThreadTree req anc desc) : Multiset String) ≤
      idsMeasure (buildThreadTree req anc desc)
        (attachStatusesToTree (locateRootNode req (anc ++ desc))).pool := Multiset.le_add_right _ _
    _ ≤ idsMeasure (locateRootNode req (anc ++ desc)).main
        (locateRootNode req (anc ++ desc)).pool := h2
    _ = idsMeasure (initBuildState req (anc ++ desc)).main
        (initBuildState req (anc ++ desc)).pool := h1
    _ = ↑(req.id :: (anc ++ desc).map (fun s => s.id)) := h3

/-! ## Lemmas about the acyclicity order and the id map -/

theorem topoOKb_mono : ∀ (l : List Status) (A B : List String), (∀ a ∈ A, a ∈ B) →
    topoOKb A l = true → topoOKb B l = true := by
  intro l
  induction l with
  | nil => intro A B _ _; rfl
  | cons p rest ih =>
    intro A B hAB h
    cases hp : p.in_reply_to_id with
    | none => simp [topoOKb, hp] at h
    | some pid =>
      simp only [topoOKb, hp, Bool.and_eq_true] at h ⊢
      refine ⟨List.elem_iff.mpr (hAB _ (List.elem_iff.mp h.1)),
        ih (p.id :: A) (p.id :: B) ?_ h.2⟩
      intro a ha
      cases ha with
      | head => exact List.mem_cons_self _ _
      | tail _ hmem => exact List.mem_cons_of_mem _ (hAB _ hmem)

theorem topoOKb_remove : ∀ (u : List Status) (v : List Status) (y : Status)
    (A B : List String), topoOKb A (u ++ y :: v) = true → (∀ a ∈ A, a ∈ B) →
    y.id ∈ B → topoOKb B (u ++ v) = true := by
  intro u
  induction u with
  | nil =>
    intro v y A B h hAB hy
    simp only [List.nil_append] at h ⊢
    cases hy0 : y.in_reply_to_id with
    | none => simp [topoOKb, hy0] at h
    | some pid =>
      simp only [topoOKb, hy0, Bool.and_eq_true] at h
      refine topoOKb_mono v (y.id :: A) B ?_ h.2
      intro a ha
      cases ha with
      | head => exact hy
      | tail _ hmem => exact hAB _ hmem
  | cons x u ih =>
    intro v y A B h hAB hy
    simp only [List.cons_append] at h ⊢
    cases hx : x.in_reply_to_id with
    | none => simp [topoOKb, hx] at h
    | some pid =>
      simp only [topoOKb, hx, Bool.and_eq_true] at h ⊢
      refine ⟨List.elem_iff.mpr (hAB _ (List.elem_iff.mp h.1)),
        ih v y (x.id :: A) (x.id :: B) h.2 ?_ (List.mem_cons_of_mem _ hy)⟩
      intro a ha
      cases ha with
      | head => exact List.mem_cons_self _ _
      | tail _ hmem => exact List.mem_cons_of_mem _ (hAB _ hmem)

theorem topoOKb_parent_some : ∀ (l : List Status) (A : List String),
    topoOKb A l = true → ∀ p ∈ l, p.in_reply_to_id ≠ none := by
  intro l
  induction l with
  | nil => intro A _ p hp; cases hp
  | cons x rest ih =>
    intro A h p hp
    cases hp with
    | head =>
      cases hx : x.in_reply_to_id with
      | none => simp [topoOKb, hx] at h
      | some pid => simp [hx]
    | tail _ hmem =>
      cases hx : x.in_reply_to_id with
      | none => simp [topoOKb, hx] at h
      | some pid =>
        simp only [topoOKb, hx, Bool.and_eq_true] at h
        exact ih (x.id :: A) h.2 _ hmem

theorem lookupId_mem : ∀ (m : List (String × Loc)) (k : String) (loc : Loc),
    lookupId m k = some loc → (k, loc) ∈ m := by
  intro m
  induction m with
  | nil => intro k loc h; cases h
  | cons x rest ih =>
    intro k loc h
    simp only [lookupId] at h
    split at h
    · rename_i heq
      cases h
      subst heq
      exact List.mem_cons_self _ _
    · exact List.mem_cons_of_mem _ (ih _ _ h)

theorem lookupId_isSome_of_key : ∀ (m : List (String × Loc)) (k : String),
    k ∈ m.map (fun kl => kl.1) → (lookupId m k).isSome := by
  intro m
  induction m with
  | nil => intro k h; cases h
  | cons x rest ih =>
    intro k h
    simp only [lookupId]
    split
    · rfl
    · rename_i hne
      simp only [List.map_cons, List.mem_cons] at h
      cases h with
      | inl heq => exact absurd heq.symm hne
      | inr hmem => exact ih _ hmem

theorem lookupId_cons_isSome (x : String × Loc) (m : List (String × Loc)) (k : String)
    (h : (lookupId m k).isSome) : (lookupId (x :: m) k).isSome := by
  simp only [lookupId]
  split
  · rfl
  · exact h

/-! ## Path preservation under child appends -/

theorem tryGetStatus_appendChildAt (t n : PTree) (q : List Nat) :
    (appendChildAt t q n).tryGetStatus = t.tryGetStatus := by
  cases q with
  | nil => cases t <;> rfl
  | cons i p =>
    cases hc : t.children[i]? with
    | none => simp only [appendChildAt, hc]
    | some c =>
      simp only [appendChildAt, hc]
      cases t <;> rfl

theorem subtreeAt_append_status : ∀ (r q : List Nat) (t n : PTree) (s : Status)
    (cs : List PTree) (hl : Bool), subtreeAt t r = some (.status s cs hl) →
    ∃ cs', subtreeAt (appendChildAt t q n) r = some (.status s cs' hl) := by
  intro r
  induction r with
  | nil =>
    intro q t n s cs hl h
    simp only [subtreeAt, Option.some_inj] at h
    subst h
    cases q with
    | nil => exact ⟨cs ++ [n], rfl⟩
    | cons i q' =>
      cases hc : cs[i]? with
      | none =>
        refine ⟨cs, ?_⟩
        simp [appendChildAt, PTree.children, hc, subtreeAt]
      | some c =>
        refine ⟨cs.set i (appendChildAt c q' n), ?_⟩
        simp [appendChildAt, PTree.children, hc, subtreeAt, PTree.withChildren]
  | cons j r' ih =>
    intro q t n s cs hl h
    simp only [subtreeAt] at h
    cases hj : t.children[j]? with
    | none => rw [hj] at h; cases h
    | some cj =>
      rw [hj] at h
      cases q with
      | nil =>
        have hlen : j < t.children.length := (List.getElem?_eq_some.mp hj).1
        refine ⟨cs, ?_⟩
        cases t with
        | status s0 cs0 hl0 =>
          simp only [PTree.children] at hj hlen
          simp only [appendChildAt, PTree.withChildren, PTree.children, subtreeAt]
          rw [List.getElem?_append_left hlen, hj]
          exact h
        | placeholder m0 cs0 hl0 =>
          simp only [PTree.children] at hj hlen
          simp only [appendChildAt, PTree.withChildren, PTree.children, subtreeAt]
          rw [List.getElem?_append_left hlen, hj]
          exact h
      | cons i q' =>
        cases hi : t.children[i]? with
        | none =>
          refine ⟨cs, ?_⟩
          simp only [appendChildAt, hi, subtreeAt, hj]
          exact h
        | some ci =>
          by_cases hij : j = i
          · subst hij
            have hc : ci = cj := by
              rw [hi] at hj
              exact Option.some_inj.mp hj
            subst hc
            obtain ⟨cs', hcs'⟩ := ih q' ci n s cs hl h
            refine ⟨cs', ?_⟩
            have hlen : j < t.children.length := (List.getElem?_eq_some.mp hi).1
            cases t with
            | status s0 cs0 hl0 =>
              simp only [PTree.children] at hi hlen
              simp only [appendChildAt, hi, PTree.withChildren, PTree.children, subtreeAt]
              rw [List.getElem?_set_self hlen]
              exact hcs'
            | placeholder m0 cs0 hl0 =>
              simp only [PTree.children] at hi hlen
              simp only [appendChildAt, hi, PTree.withChildren, PTree.children, subtreeAt]
              rw [List.getElem?_set_self hlen]
              exact hcs'
          · refine ⟨cs, ?_⟩
            cases t with
            | status s0 cs0 hl0 =>
              simp only [PTree.children] at hi hj
              simp only [appendChildAt, hi, PTree.withChildren, PTree.children, subtreeAt]
              rw [List.getElem?_set_ne (fun hh => hij hh.symm), hj]
              exact h
            | placeholder m0 cs0 hl0 =>
              simp only [PTree.children] at hi hj
              simp only [appendChildAt, hi, PTree.withChildren, PTree.children, subtreeAt]
              rw [List.getElem?_set_ne (fun hh => hij hh.symm), hj]
              exact h

theorem subtreeAt_append_new : ∀ (q : List Nat) (t n v : PTree), subtreeAt t q = some v →
    subtreeAt (appendChildAt t q n) (q ++ [v.children.length]) = some n := by
  intro q
  induction q with
  | nil =>
    intro t n v h
    simp only [subtreeAt, Option.some_inj] at h
    subst h
    cases t with
    | status s cs hl =>
      simp only [appendChildAt, PTree.withChildren, PTree.children, List.nil_append, subtreeAt]
      rw [List.getElem?_concat_length]
    | placeholder m cs hl =>
      simp only [appendChildAt, PTree.withChildren, PTree.children, List.nil_append, subtreeAt]
      rw [List.getElem?_concat_length]
  | cons i q' ih =>
    intro t n v h
    simp only [subtreeAt] at h
    cases hi : t.children[i]? with
    | none => rw [hi] at h; cases h
    | some c =>
      rw [hi] at h
      have hlen : i < t.children.length := (List.getElem?_eq_some.mp hi).1
      have hrec := ih c n v h
      cases t with
      | status s0 cs0 hl0 =>
        simp only [PTree.children] at hi hlen
        simp only [appendChildAt, hi, PTree.withChildren, PTree.children, List.cons_append,
          subtreeAt]
        rw [List.getElem?_set_self hlen]
        exact hrec
      | placeholder m0 cs0 hl0 =>
        simp only [PTree.children] at hi hlen
        simp only [appendChildAt, hi, PTree.withChildren, PTree.children, List.cons_append,
          subtreeAt]
        rw [List.getElem?_set_self hlen]
        exact hrec

theorem treeStatusIds_appendChildAt_valid : ∀ (q : List Nat) (t n u : PTree),
    subtreeAt t q = some u →
    (treeStatusIds (appendChildAt t q n) : Multiset String) =
      ↑(treeStatusIds t) + ↑(treeStatusIds n) := by
  intro q
  induction q with
  | nil =>
    intro t n u _
    rw [treeStatusIds_appendChildAt_root, ← Multiset.coe_add]
  | cons i q' ih =>
    intro t n u h
    simp only [subtreeAt] at h
    cases hi : t.children[i]? with
    | none => rw [hi] at h; cases h
    | some c =>
      rw [hi] at h
      have hrec := ih c n u h
      have hset := forestStatusIds_set i t.children c (appendChildAt c q' n) hi
      rw [hrec] at hset
      have hf : (forestStatusIds (t.children.set i (appendChildAt c q' n)) : Multiset String) =
          ↑(forestStatusIds t.children) + ↑(treeStatusIds n) := by
        have h2 : (forestStatusIds (t.children.set i (appendChildAt c q' n)) : Multiset String)
            + ↑(treeStatusIds c) =
            (↑(forestStatusIds t.children) + ↑(treeStatusIds n)) + ↑(treeStatusIds c) := by
          rw [hset]
          abel
        exact add_right_cancel h2
      cases t with
      | status s cs hl =>
        simp only [PTree.children] at hi hf
        simp only [appendChildAt, PTree.children, hi, PTree.withChildren]
        simp only [treeStatusIds, ← Multiset.cons_coe, ← Multiset.singleton_add, hf]
        abel
      | placeholder m cs hl =>
        simp only [PTree.children] at hi hf
        simp only [appendChildAt, PTree.children, hi, PTree.withChildren]
        simp only [treeStatusIds, hf]

/-! ## Edge bookkeeping -/

theorem forestEdges_append (l₁ l₂ : List PTree) :
    forestEdges (l₁ ++ l₂) = forestEdges l₁ ++ forestEdges l₂ := by
  induction l₁ with
  | nil => simp [forestEdges]
  | cons c rest ih => simp [forestEdges, ih]

theorem filterMap_set_congr {α β : Type} (f : α → Option β) :
    ∀ (l : List α) (i : Nat) (c c' : α), l[i]? = some c → f c' = f c →
      (l.set i c').filterMap f = l.filterMap f := by
  intro l
  induction l with
  | nil => intro i c c' h _; cases h
  | cons x rest ih =>
    intro i c c' h hf
    cases i with
    | zero =>
      simp only [List.getElem?_cons_zero, Option.some_inj] at h
      subst h
      simp [List.filterMap_cons, hf]
    | succ j =>
      simp only [List.getElem?_cons_succ] at h
      simp [List.filterMap_cons, ih j c c' h hf]

theorem forestEdges_set (i : Nat) :
    ∀ (cs : List PTree) (c c' : PTree), cs[i]? = some c →
      (forestEdges (cs.set i c') : Multiset (String × String)) + ↑(treeEdges c) =
        ↑(forestEdges cs) + ↑(treeEdges c') := by
  induction i with
  | zero =>
    intro cs c c' h
    cases cs with
    | nil => cases h
    | cons x rest =>
      simp only [List.getElem?_cons_zero, Option.some_inj] at h
      subst h
      show (forestEdges (c' :: rest) : Multiset (String × String)) + ↑(treeEdges x) =
        ↑(forestEdges (x :: rest)) + ↑(treeEdges c')
      simp only [forestEdges, ← Multiset.coe_add]
      abel
  | succ j ih =>
    intro cs c c' h
    cases cs with
    | nil => cases h
    | cons x rest =>
      simp only [List.getElem?_cons_succ] at h
      have hr := ih rest c c' h
      show (forestEdges (x :: rest.set j c') : Multiset (String × String)) + ↑(treeEdges c) =
        ↑(forestEdges (x :: rest)) + ↑(treeEdges c')
      simp only [forestEdges, ← Multiset.coe_add]
      rw [add_assoc, hr]
      abel

theorem treeEdges_appendChildAt_valid : ∀ (q : List Nat) (t : PTree) (p : Status) (b : Bool)
    (s : Status) (cs : List PTree) (hl : Bool),
    subtreeAt t q = some (.status s cs hl) →
    (treeEdges (appendChildAt t q (.status p [] b)) : Multiset (String × String)) =
      ↑(treeEdges t) + {(s.id, p.id)} := by
  intro q
  induction q with
  | nil =>
    intro t p b s cs hl h
    simp only [subtreeAt, Option.some_inj] at h
    subst h
    simp only [appendChildAt, PTree.withChildren, PTree.children, treeEdges,
      List.filterMap_append, forestEdges_append]
    simp only [List.filterMap_cons, List.filterMap_nil, PTree.tryGetStatus, Option.map_some',
      forestEdges, treeEdges, List.append_nil]
    simp only [← Multiset.coe_add, ← Multiset.cons_coe, ← Multiset.singleton_add,
      Multiset.coe_singleton]
    abel
  | cons i q' ih =>
    intro t p b s cs hl h
    simp only [subtreeAt] at h
    cases hi : t.children[i]? with
    | none => rw [hi] at h; cases h
    | some c =>
      rw [hi] at h
      have hrec := ih c p b s cs hl h
      have hset := forestEdges_set i t.children c (appendChildAt c q' (.status p [] b)) hi
      rw [hrec] at hset
      have hf : (forestEdges (t.children.set i (appendChildAt c q' (.status p [] b))) :
          Multiset (String × String)) = ↑(forestEdges t.children) + {(s.id, p.id)} := by
        have h2 : (forestEdges (t.children.set i (appendChildAt c q' (.status p [] b))) :
            Multiset (String × String)) + ↑(treeEdges c) =
            (↑(forestEdges t.children) + {(s.id, p.id)}) + ↑(treeEdges c) := by
          rw [hset]
          abel
        exact add_right_cancel h2
      have hpair : ∀ (s0 : Status),
          (fun cc => (cc.tryGetStatus).map (fun cst => (s0.id, cst.id)))
              (appendChildAt c q' (.status p [] b)) =
            (fun cc => (cc.tryGetStatus).map (fun cst => (s0.id, cst.id))) c := by
        intro s0
        simp only [tryGetStatus_appendChildAt]
      cases t with
      | status s0 cs0 hl0 =>
        simp only [PTree.children] at hi hf
        simp only [appendChildAt, PTree.children, hi, PTree.withChildren]
        simp only [treeEdges]
        rw [filterMap_set_congr _ cs0 i c _ hi (hpair s0)]
        simp only [← Multiset.coe_add, hf]
        abel
      | placeholder m0 cs0 hl0 =>
        simp only [PTree.children] at hi hf
        simp only [appendChildAt, PTree.children, hi, PTree.withChildren]
        simp only [treeEdges, hf]

/-! ## The full build never attaches a placeholder to the tree -/

theorem forestPlaceholderCount_append (l₁ l₂ : List PTree) :
    forestPlaceholderCount (l₁ ++ l₂) =
      forestPlaceholderCount l₁ + forestPlaceholderCount l₂ := by
  induction l₁ with
  | nil => simp [forestPlaceholderCount]
  | cons c rest ih => simp [forestPlaceholderCount, ih]; omega

theorem forestPlaceholderCount_set (i : Nat) :
    ∀ (cs : List PTree) (c c' : PTree), cs[i]? = some c →
      placeholderCount c' = placeholderCount c →
      forestPlaceholderCount (cs.set i c') = forestPlaceholderCount cs := by
  induction i with
  | zero =>
    intro cs c c' h hc
    cases cs with
    | nil => cases h
    | cons x rest =>
      simp only [List.getElem?_cons_zero, Option.some_inj] at h
      subst h
      show forestPlaceholderCount (c' :: rest) = forestPlaceholderCount (x :: rest)
      simp [forestPlaceholderCount, hc]
  | succ j ih =>
    intro cs c c' h hc
    cases cs with
    | nil => cases h
    | cons x rest =>
      simp only [List.getElem?_cons_succ] at h
      show forestPlaceholderCount (x :: rest.set j c') = forestPlaceholderCount (x :: rest)
      simp [forestPlaceholderCount, ih rest c c' h hc]

theorem placeholderCount_appendChildAt : ∀ (q : List Nat) (t n : PTree),
    placeholderCount n = 0 →
    placeholderCount (appendChildAt t q n) = placeholderCount t := by
  intro q
  induction q with
  | nil =>
    intro t n hn
    cases t with
    | status s cs hl =>
      simp [appendChildAt, PTree.withChildren, PTree.children, placeholderCount,
        forestPlaceholderCount_append, forestPlaceholderCount, hn]
    | placeholder m cs hl =>
      simp [appendChildAt, PTree.withChildren, PTree.children, placeholderCount,
        forestPlaceholderCount_append, forestPlaceholderCount, hn]
  | cons i q' ih =>
    intro t n hn
    cases hi : t.children[i]? with
    | none => simp only [appendChildAt, hi]
    | some c =>
      have hrec := ih c n hn
      cases t with
      | status s cs hl =>
        simp only [PTree.children] at hi
        simp only [appendChildAt, PTree.children, hi, PTree.withChildren, placeholderCount]
        rw [forestPlaceholderCount_set i cs c _ hi hrec]
      | placeholder m cs hl =>
        simp only [PTree.children] at hi
        simp only [appendChildAt, PTree.children, hi, PTree.withChildren, placeholderCount]
        rw [forestPlaceholderCount_set i cs c _ hi hrec]

theorem attachOne_placeholderCount {st : BuildState} {p : Status} {st' : BuildState}
    (h : attachOne st p = some st') :
    placeholderCount st'.main = placeholderCount st.main := by
  unfold attachOne at h
  split at h
  · cases h
    exact placeholderCount_appendChildAt [] st.main _ rfl
  · rename_i pid hpid
    cases hl : lookupId st.idMap pid with
    | none => rw [hl] at h; cases h
    | some parentLoc =>
      rw [hl] at h
      cases h
      cases ho : parentLoc.owner with
      | none =>
        rw [appendAtLoc_main_owner_none ho]
        exact placeholderCount_appendChildAt parentLoc.path st.main _ rfl
      | some j => rw [appendAtLoc_main_owner_some ho]

theorem attachPassS_placeholderCount :
    ∀ (st : BuildState) (done : List Status) (n : Nat) (todo : List Status),
      placeholderCount (attachPassS st done n todo).1.main = placeholderCount st.main := by
  intro st done n todo
  induction st, done, n, todo using attachPassS.induct with
  | case1 st done n => simp [attachPassS]
  | case2 st done n status st' hone =>
    simp only [attachPassS, hone]
    exact attachOne_placeholderCount hone
  | case3 st done n status st' hone skipped rest' ih =>
    simp only [attachPassS, hone] at ih ⊢
    rw [ih, attachOne_placeholderCount hone]
  | case4 st done n status rest hone ih =>
    simp only [attachPassS, hone] at ih ⊢
    exact ih

theorem placeholderStep_placeholderCount (st : BuildState) :
    placeholderCount (placeholderStep st).main = placeholderCount st.main := by
  cases hl : st.pool.getLast? with
  | none => simp [placeholderStep, hl]
  | some status =>
    simp only [placeholderStep, hl]
    exact placeholderCount_appendChildAt [] st.main _ rfl

theorem attachLoop_placeholderCount :
    ∀ (fuel : Nat) (st st' : BuildState), attachLoop fuel st = some st' →
      placeholderCount st'.main = placeholderCount st.main := by
  intro fuel
  induction fuel with
  | zero =>
    intro st st' h
    simp only [attachLoop] at h
    split at h
    · cases h; rfl
    · cases h
  | succ fuel ih =>
    intro st st' h
    simp only [attachLoop] at h
    split at h
    · cases h; rfl
    · split at h
      · cases h
        simpa [attachPassRun] using attachPassS_placeholderCount st [] 0 st.pool
      · split at h
        · rw [ih _ _ h, placeholderStep_placeholderCount]
          simpa [attachPassRun] using attachPassS_placeholderCount st [] 0 st.pool
        · rw [ih _ _ h]
          simpa [attachPassRun] using attachPassS_placeholderCount st [] 0 st.pool

theorem wrapStep_placeholderCount (req : Status) (st : BuildState) (idx : Nat) :
    placeholderCount (wrapStep req st idx).main = placeholderCount st.main := by
  unfold wrapStep
  cases hg : st.pool[idx]? with
  | none => rfl
  | some ns => simp [placeholderCount, forestPlaceholderCount]

theorem locateRootLoop_placeholderCount :
    ∀ (fuel : Nat) (req : Status) (st st' : BuildState),
      locateRootLoop fuel req st = some st' →
      placeholderCount st'.main = placeholderCount st.main := by
  intro fuel
  induction fuel with
  | zero =>
    intro req st st' h
    simp only [locateRootLoop] at h
    split at h
    · cases h; rfl
    · cases h
  | succ fuel ih =>
    intro req st st' h
    simp only [locateRootLoop] at h
    cases hf : locateRootFind req st with
    | none => rw [hf] at h; cases h; rfl
    | some idx =>
      rw [hf] at h
      rw [ih req _ _ h, wrapStep_placeholderCount]

/-- Universally — for every input, resolvable or not — the tree returned by
the full build contains zero placeholder nodes: the attachment code only
ever pushes status nodes into the tree. -/
theorem buildThreadTree_placeholderCount (req : Status) (anc desc : List Status) :
    placeholderCount (buildThreadTree req anc desc) = 0 := by
  have hloc := locateRootNode_eq_loop req (anc ++ desc)
  have h1 := locateRootLoop_placeholderCount _ req _ _ hloc
  have hatt := attachStatusesToTree_eq_loop (locateRootNode req (anc ++ desc))
  have h2 := attachLoop_placeholderCount _ _ _ hatt
  show placeholderCount (attachStatusesToTree (locateRootNode req (anc ++ desc))).main = 0
  rw [h2, h1]
  rfl

/-! ## The clean attach step -/

theorem appendAtLoc_idMap (st : BuildState) (loc : Loc) (n : PTree) :
    (appendAtLoc st loc n).idMap = st.idMap := by
  obtain ⟨owner, path⟩ := loc
  cases owner with
  | none => rfl
  | some j => cases hd : st.detached[j]? <;> simp [appendAtLoc, hd]

theorem appendAtLoc_pool (st : BuildState) (loc : Loc) (n : PTree) :
    (appendAtLoc st loc n).pool = st.pool := by
  obtain ⟨owner, path⟩ := loc
  cases owner with
  | none => rfl
  | some j => cases hd : st.detached[j]? <;> simp [appendAtLoc, hd]

theorem appendAtLoc_detached_owner_none {st : BuildState} {loc : Loc} {n : PTree}
    (h : loc.owner = none) : (appendAtLoc st loc n).detached = st.detached := by
  obtain ⟨owner, path⟩ := loc
  have h' : owner = none := h
  subst h'
  rfl

theorem childCountAtLoc_status {st : BuildState} {loc : Loc} {s : Status} {cs : List PTree}
    {hl : Bool} (ho : loc.owner = none)
    (hsub : subtreeAt st.main loc.path = some (.status s cs hl)) :
    childCountAtLoc st loc = cs.length := by
  simp [childCountAtLoc, ho, hsub, PTree.children]

/-- Attaching a post whose parent id is healthy in `idMap` appends one
status leaf under the node wrapping the parent: the id multiset of the main
tree gains the post's id, the edge multiset gains the `(parent, child)`
pair, the map stays healthy, and nothing else changes. -/
theorem attachOne_clean {st : BuildState} {p : Status} {st' : BuildState} {pid : String}
    (hp : p.in_reply_to_id = some pid) (hok : IdMapOK st)
    (hone : attachOne st p = some st') :
    IdMapOK st' ∧ st'.detached = st.detached ∧ st'.pool = st.pool ∧
    (∃ loc, loc.owner = none ∧ st'.idMap = (p.id, loc) :: st.idMap) ∧
    (treeStatusIds st'.main : Multiset String) = ↑(treeStatusIds st.main) + {p.id} ∧
    (treeEdges st'.main : Multiset (String × String)) =
      ↑(treeEdges st.main) + {(pid, p.id)} := by
  unfold attachOne at hone
  simp only [hp] at hone
  cases hl : lookupId st.idMap pid with
  | none => exact absurd hone (by simp [hl])
  | some parentLoc =>
    simp only [hl, Option.some_inj] at hone
    subst hone
    obtain ⟨hownone, s, cs, shl, hsub, hsid⟩ :
        parentLoc.owner = none ∧ ∃ s cs hl0, subtreeAt st.main parentLoc.path =
          some (.status s cs hl0) ∧ s.id = pid := by
      obtain ⟨h1, s, cs, hl0, h2, h3⟩ := hok pid parentLoc (lookupId_mem _ _ _ hl)
      exact ⟨h1, s, cs, hl0, h2, h3⟩
    have hcnt : childCountAtLoc st parentLoc = cs.length := childCountAtLoc_status hownone hsub
    have hcnt' : childCountAtLoc { st with
        idMap := (p.id, (⟨parentLoc.owner, parentLoc.path ++ [childCountAtLoc st parentLoc]⟩ :
          Loc)) :: st.idMap } parentLoc = cs.length := hcnt
    have hmain : (appendAtLoc { st with
        idMap := (p.id, (⟨parentLoc.owner, parentLoc.path ++ [childCountAtLoc st parentLoc]⟩ :
          Loc)) :: st.idMap } parentLoc (.status p [] false)).main =
        appendChildAt st.main parentLoc.path (.status p [] false) :=
      appendAtLoc_main_owner_none hownone
    refine ⟨?_, ?_, ?_, ?_, ?_, ?_⟩
    · intro k loc hmem
      rw [appendAtLoc_idMap] at hmem
      simp only [List.mem_cons] at hmem
      cases hmem with
      | inl hnew =>
        have hk : k = p.id := congrArg Prod.fst hnew
        have hloc : loc = ⟨parentLoc.owner, parentLoc.path ++ [childCountAtLoc st parentLoc]⟩ :=
          congrArg Prod.snd hnew
        subst hk
        subst hloc
        refine ⟨hownone, p, [], false, ?_, rfl⟩
        rw [hmain]
        simp only [hownone, hcnt]
        have := subtreeAt_append_new parentLoc.path st.main (.status p [] false) _ hsub
        simpa [PTree.children] using this
      | inr hold =>
        obtain ⟨ho, sk, csk, hlk, hsubk, hsk⟩ := hok k loc hold
        refine ⟨ho, sk, ?_⟩
        rw [hmain]
        obtain ⟨cs', hcs'⟩ := subtreeAt_append_status loc.path parentLoc.path st.main
          (.status p [] false) sk csk hlk hsubk
        exact ⟨cs', hlk, hcs', hsk⟩
    · exact appendAtLoc_detached_owner_none hownone
    · exact appendAtLoc_pool _ _ _
    · refine ⟨⟨parentLoc.owner, parentLoc.path ++ [childCountAtLoc st parentLoc]⟩, hownone, ?_⟩
      rw [appendAtLoc_idMap]
    · rw [hmain, treeStatusIds_appendChildAt_valid parentLoc.path st.main _ _ hsub]
      simp [treeStatusIds, forestStatusIds, Multiset.coe_singleton]
    · rw [hmain, treeEdges_appendChildAt_valid parentLoc.path st.main p false s cs shl hsub,
        hsid]

theorem attachPassS_numAdded_le :
    ∀ (st : BuildState) (done : List Status) (n : Nat) (todo : List Status),
      n ≤ (attachPassS st done n todo).2 := by
  intro st done n todo
  induction st, done, n, todo using attachPassS.induct with
  | case1 st done n => simp [attachPassS]
  | case2 st done n status st' hone => simp [attachPassS, hone]
  | case3 st done n status st' hone skipped rest' ih =>
    simp only [attachPassS, hone] at ih ⊢
    omega
  | case4 st done n status rest hone ih =>
    simp only [attachPassS, hone] at ih ⊢
    exact ih

theorem attachOne_isSome_of_key {st : BuildState} {e : Status} {pid : String}
    (hp : e.in_reply_to_id = some pid)
    (hkey : pid ∈ st.idMap.map (fun kl => kl.1)) : (attachOne st e).isSome := by
  unfold attachOne
  obtain ⟨loc, hloc⟩ := option_isSome_exists (lookupId_isSome_of_key _ _ hkey)
  simp [hp, hloc]

theorem attachOne_isSome_cons {st st' : BuildState} {e : Status} {x : String × Loc}
    (hmap : st'.idMap = x :: st.idMap)
    (h : (attachOne st e).isSome) : (attachOne st' e).isSome := by
  unfold attachOne at h ⊢
  cases he : e.in_reply_to_id with
  | none => simp [he]
  | some pid =>
    simp only [he] at h ⊢
    rw [hmap]
    cases hl : lookupId st.idMap pid with
    | none => simp [hl] at h
    | some loc =>
      obtain ⟨loc', hloc'⟩ := option_isSome_exists
        (lookupId_cons_isSome x st.idMap pid (by rw [hl]; rfl))
      simp [hloc']

theorem attachPassS_progress :
    ∀ (st : BuildState) (done : List Status) (n : Nat) (todo : List Status),
      (∃ e ∈ todo, (attachOne st e).isSome) →
      n + 1 ≤ (attachPassS st done n todo).2 := by
  intro st done n todo
  induction st, done, n, todo using attachPassS.induct with
  | case1 st done n =>
    intro ⟨e, he, _⟩
    cases he
  | case2 st done n status st' hone =>
    intro _
    simp [attachPassS, hone]
  | case3 st done n status st' hone skipped rest' ih =>
    intro _
    simp only [attachPassS, hone]
    have := attachPassS_numAdded_le st' (done ++ [skipped]) (n + 1) rest'
    omega
  | case4 st done n status rest hone ih =>
    intro ⟨e, he, hatt⟩
    simp only [attachPassS, hone]
    cases he with
    | head =>
      rw [hone] at hatt
      cases hatt
    | tail _ hmem => exact ih ⟨e, hmem, hatt⟩

/-- The clean pass invariant: a pass over a resolvable, acyclically ordered
pool keeps the map healthy and detached placeholders absent, and the
conserved id/edge multisets account exactly for the attached posts. -/
theorem attachPassS_clean :
    ∀ (st : BuildState) (done : List Status) (n : Nat) (todo : List Status),
      IdMapOK st → st.detached = [] →
      (∀ e ∈ done ++ todo, e.in_reply_to_id ≠ none) →
      IdMapOK (attachPassS st done n todo).1 ∧
      (attachPassS st done n todo).1.detached = [] ∧
      (∀ e ∈ (attachPassS st done n todo).1.pool, e.in_reply_to_id ≠ none) ∧
      (∀ pool', pool'.Perm (done ++ todo) →
        topoOKb (st.idMap.map (fun kl => kl.1)) pool' = true →
        ∃ pool'', pool''.Perm (attachPassS st done n todo).1.pool ∧
          topoOKb ((attachPassS st done n todo).1.idMap.map (fun kl => kl.1)) pool'' = true) ∧
      (treeStatusIds (attachPassS st done n todo).1.main : Multiset String) +
          ↑((attachPassS st done n todo).1.pool.map (fun s => s.id)) =
        ↑(treeStatusIds st.main) + ↑((done ++ todo).map (fun s => s.id)) ∧
      (treeEdges (attachPassS st done n todo).1.main : Multiset (String × String)) +
          ↑((attachPassS st done n todo).1.pool.map (fun p => (parentIdOf p, p.id))) =
        ↑(treeEdges st.main) + ↑((done ++ todo).map (fun p => (parentIdOf p, p.id))) := by
  intro st done n todo
  induction st, done, n, todo using attachPassS.induct with
  | case1 st done n =>
    intro hok hdet hsome
    refine ⟨hok, hdet, ?_, ?_, by simp [attachPassS], by simp [attachPassS]⟩
    · intro e he
      exact hsome e (by simpa using he)
    · intro pool' hperm htopo
      exact ⟨pool', by simpa [attachPassS] using hperm, by simpa [attachPassS] using htopo⟩
  | case2 st done n status st' hone =>
    intro hok hdet hsome
    have hstat : status ∈ done ++ [status] := by simp
    cases hq : status.in_reply_to_id with
    | none => exact absurd hq (hsome status hstat)
    | some pid =>
      obtain ⟨hok', hdet', hpool', ⟨newLoc, hlocown, hmap'⟩, hids, hedges⟩ :=
        attachOne_clean hq hok hone
      simp only [attachPassS, hone]
      refine ⟨hok', by rw [hdet']; exact hdet, ?_, ?_, ?_, ?_⟩
      · intro e he
        exact hsome e (by simp only [List.mem_append]; exact Or.inl he)
      · intro pool' hperm htopo
        have hmem : status ∈ pool' := hperm.mem_iff.mpr hstat
        obtain ⟨u, v, huv⟩ := List.append_of_mem hmem
        refine ⟨u ++ v, ?_, ?_⟩
        · have h1 : (u ++ status :: v).Perm (status :: (u ++ v)) := List.perm_middle
          have h2 : (done ++ [status]).Perm (status :: done) :=
            @List.perm_append_comm _ done [status]
          have h3 : (status :: (u ++ v)).Perm (status :: done) :=
            (h1.symm.trans (huv ▸ hperm)).trans h2
          exact h3.cons_inv
        · rw [hmap']
          refine topoOKb_remove u v status _ _ (huv ▸ htopo) ?_ ?_
          · intro a ha
            exact List.mem_cons_of_mem _ ha
          · exact List.mem_cons_self _ _
      · rw [hids]
        simp only [List.map_append, List.map_cons, List.map_nil, ← Multiset.coe_add,
          ← Multiset.cons_coe, ← Multiset.singleton_add, Multiset.coe_singleton]
        abel
      · rw [hedges]
        have : parentIdOf status = pid := by simp [parentIdOf, hq]
        rw [← this]
        simp only [List.map_append, List.map_cons, List.map_nil, ← Multiset.coe_add,
          ← Multiset.cons_coe, ← Multiset.singleton_add, Multiset.coe_singleton]
        abel
  | case3 st done n status st' hone skipped rest' ih =>
    intro hok hdet hsome
    have hstat : status ∈ done ++ status :: skipped :: rest' := by simp
    cases hq : status.in_reply_to_id with
    | none => exact absurd hq (hsome status hstat)
    | some pid =>
      obtain ⟨hok', hdet', hpool', ⟨newLoc, hlocown, hmap'⟩, hids, hedges⟩ :=
        attachOne_clean hq hok hone
      have hsome' : ∀ e ∈ (done ++ [skipped]) ++ rest', e.in_reply_to_id ≠ none := by
        intro e he
        refine hsome e ?_
        simp only [List.mem_append, List.mem_cons, List.not_mem_nil, or_false] at he ⊢
        tauto
      obtain ⟨ihok, ihdet, ihpool, ihtopo, ihids, ihedges⟩ := ih hok' (hdet' ▸ hdet) hsome'
      simp only [attachPassS, hone] at ihok ihdet ihpool ihtopo ihids ihedges ⊢
      refine ⟨ihok, ihdet, ihpool, ?_, ?_, ?_⟩
      · intro pool' hperm htopo
        have hmem : status ∈ pool' := hperm.mem_iff.mpr hstat
        obtain ⟨u, v, huv⟩ := List.append_of_mem hmem
        refine ihtopo (u ++ v) ?_ ?_
        · have h1 : (u ++ status :: v).Perm (status :: (u ++ v)) := List.perm_middle
          have h2 : (done ++ status :: skipped :: rest').Perm
              (status :: (done ++ skipped :: rest')) := List.perm_middle.symm.symm
          have h2' : (done ++ status :: skipped :: rest').Perm
              (status :: (done ++ skipped :: rest')) := List.perm_middle
          have h3 : (status :: (u ++ v)).Perm (status :: (done ++ skipped :: rest')) :=
            (h1.symm.trans (huv ▸ hperm)).trans h2'
          have h4 := h3.cons_inv
          refine h4.trans (List.Perm.of_eq ?_)
          simp [List.append_assoc]
        · rw [hmap']
          refine topoOKb_remove u v status _ _ (huv ▸ htopo) ?_ ?_
          · intro a ha
            exact List.mem_cons_of_mem _ ha
          · exact List.mem_cons_self _ _
      · rw [ihids, hids]
        simp only [List.map_append, List.map_cons, List.map_nil, ← Multiset.coe_add,
          ← Multiset.cons_coe, ← Multiset.singleton_add, Multiset.coe_singleton]
        abel
      · rw [ihedges, hedges]
        have : parentIdOf status = pid := by simp [parentIdOf, hq]
        rw [← this]
        simp only [List.map_append, List.map_cons, List.map_nil, ← Multiset.coe_add,
          ← Multiset.cons_coe, ← Multiset.singleton_add, Multiset.coe_singleton]
        abel
  | case4 st done n status rest hone ih =>
    intro hok hdet hsome
    have hsome' : ∀ e ∈ (done ++ [status]) ++ rest, e.in_reply_to_id ≠ none := by
      intro e he
      refine hsome e ?_
      simp only [List.mem_append, List.mem_cons, List.not_mem_nil, or_false] at he ⊢
      tauto
    obtain ⟨ihok, ihdet, ihpool, ihtopo, ihids, ihedges⟩ := ih hok hdet hsome'
    simp only [attachPassS, hone] at ihok ihdet ihpool ihtopo ihids ihedges ⊢
    have hlist : (done ++ [status]) ++ rest = done ++ status :: rest := by
      simp [List.append_assoc]
    refine ⟨ihok, ihdet, ihpool, ?_, ?_, ?_⟩
    · intro pool' hperm htopo
      exact ihtopo pool' (by rw [hlist]; exact hperm) htopo
    · rw [ihids, hlist]
    · rw [ihedges, hlist]

/-- The clean attachment loop: on a resolvable, acyclic pool every pass
attaches at least one post, the placeholder branch never runs, and the
final tree's ids and edges account exactly for the whole pool. -/
theorem attachLoop_clean :
    ∀ (fuel : Nat) (st : BuildState), st.pool.length ≤ fuel →
      IdMapOK st → st.detached = [] →
      (∀ e ∈ st.pool, e.in_reply_to_id ≠ none) →
      (∃ pool', pool'.Perm st.pool ∧
        topoOKb (st.idMap.map (fun kl => kl.1)) pool' = true) →
      ∃ st', attachLoop fuel st = some st' ∧ st'.detached = [] ∧
        (treeStatusIds st'.main : Multiset String) =
          ↑(treeStatusIds st.main) + ↑(st.pool.map (fun s => s.id)) ∧
        (treeEdges st'.main : Multiset (String × String)) =
          ↑(treeEdges st.main) + ↑(st.pool.map (fun p => (parentIdOf p, p.id))) := by
  intro fuel
  induction fuel with
  | zero =>
    intro st h hok hdet hsome htopo
    have hp : st.pool = [] := List.length_eq_zero.mp (Nat.le_zero.mp h)
    refine ⟨st, by simp [attachLoop, hp], hdet, by simp [hp], by simp [hp]⟩
  | succ fuel ih =>
    intro st h hok hdet hsome htopo
    by_cases hp : st.pool = []
    · exact ⟨st, by simp [attachLoop, hp], hdet, by simp [hp], by simp [hp]⟩
    · obtain ⟨pool', hperm, htop⟩ := htopo
      obtain ⟨mok, mdet, mpool, mtopo, mids, medges⟩ :=
        attachPassS_clean st [] 0 st.pool hok hdet (by simpa using hsome)
      have hpr : attachPassRun st = attachPassS st [] 0 st.pool := rfl
      rw [← hpr] at mok mdet mpool mtopo mids medges
      have hprog : 1 ≤ (attachPassRun st).2 := by
        cases hpl : pool' with
        | nil =>
          exact absurd (List.Perm.eq_nil (hpl ▸ hperm).symm) hp
        | cons e rest =>
          have hePool : e ∈ st.pool := (hpl ▸ hperm).mem_iff.mp (List.mem_cons_self _ _)
          cases hq : e.in_reply_to_id with
          | none => exact absurd hq (hsome e hePool)
          | some pid =>
            have hkey : pid ∈ st.idMap.map (fun kl => kl.1) := by
              rw [hpl] at htop
              simp only [topoOKb, hq, Bool.and_eq_true] at htop
              exact List.elem_iff.mp htop.1
            exact attachPassS_progress st [] 0 st.pool
              ⟨e, hePool, attachOne_isSome_of_key hq hkey⟩
      have hlen : (attachPassRun st).1.pool.length + (attachPassRun st).2 = st.pool.length := by
        simpa [attachPassRun] using attachPassS_len st [] 0 st.pool
      obtain ⟨pool'', hperm'', htop''⟩ :=
        mtopo pool' (by simpa using hperm) htop
      by_cases h1 : (attachPassRun st).1.pool = []
      · refine ⟨(attachPassRun st).1, ?_, mdet, ?_, ?_⟩
        · simp only [attachLoop, if_neg hp, if_pos h1]
        · have := mids
          rw [h1] at this
          simpa using this
        · have := medges
          rw [h1] at this
          simpa using this
      · have h2 : (attachPassRun st).2 ≠ 0 := by omega
        obtain ⟨st', hst', hdet', hids', hedges'⟩ := ih (attachPassRun st).1
          (by omega) mok mdet mpool ⟨pool'', hperm'', htop''⟩
        refine ⟨st', ?_, hdet', ?_, ?_⟩
        · simp only [attachLoop, if_neg hp, if_neg h1, if_neg h2]
          exact hst'
        · rw [hids']
          have := mids
          simpa using this
        · rw [hedges']
          have := medges
          simpa using this

theorem findIdxO_none_of_all {p : Status → Bool} :
    ∀ {l : List Status}, (∀ s ∈ l, p s = false) → findIdxO p l = none := by
  intro l
  induction l with
  | nil => intro _; rfl
  | cons x rest ih =>
    intro h
    simp only [findIdxO, h x (List.mem_cons_self _ _)]
    rw [ih (fun s hs => h s (List.mem_cons_of_mem _ hs))]
    rfl

theorem locateRootLoop_of_find_none {fuel : Nat} {req : Status} {st : BuildState}
    (h : locateRootFind req st = none) : locateRootLoop fuel req st = some st := by
  cases fuel <;> simp [locateRootLoop, h]

/-- When the requested post's own parent is not in the pool, the upward walk
does nothing: the root stays the requested post and the pool is untouched. -/
theorem locateRootNode_noop {req : Status} {pool : List Status}
    (h3 : ∀ q ∈ pool, req.in_reply_to_id ≠ some q.id) :
    locateRootNode req pool = initBuildState req pool := by
  have hf : locateRootFind req (initBuildState req pool) = none := by
    unfold locateRootFind
    split
    · rfl
    · have hrt : rootReplyTarget (initBuildState req pool) = req.in_reply_to_id := rfl
      cases hr : req.in_reply_to_id with
      | none => simp [hrt, hr]
      | some pid =>
        simp only [hrt, hr]
        apply findIdxO_none_of_all
        intro s hs
        have := h3 s hs
        rw [hr] at this
        simp only [ne_eq, Option.some_inj] at this
        simp [initBuildState]
        exact fun he => this (he ▸ rfl)
  rw [locateRootNode, locateRootLoop_of_find_none hf]
  rfl

/-- Characterization of clean builds: the returned tree wraps exactly the
requested post and the pool, and its parent/child edges are exactly each
pool post's `(in_reply_to_id, id)` pair. -/
theorem buildThreadTree_clean_char (req : Status) (anc desc : List Status)
    (h : CleanInput req (anc ++ desc)) :
    (treeStatusIds (buildThreadTree req anc desc) : Multiset String) =
      ↑(req.id :: (anc ++ desc).map (fun s => s.id)) ∧
    (treeEdges (buildThreadTree req anc desc) : Multiset (String × String)) =
      ↑((anc ++ desc).map (fun p => (parentIdOf p, p.id))) := by
  obtain ⟨h1, ⟨pool', hperm, htopo⟩, h3⟩ := h
  have hnoop := locateRootNode_noop h3
  have hok : IdMapOK (initBuildState req (anc ++ desc)) := by
    intro k loc hmem
    simp only [initBuildState, List.mem_singleton, Prod.mk.injEq] at hmem
    obtain ⟨hk, hloc⟩ := hmem
    subst hk
    subst hloc
    exact ⟨rfl, req, [], true, rfl, rfl⟩
  have hsome : ∀ e ∈ (initBuildState req (anc ++ desc)).pool, e.in_reply_to_id ≠ none := by
    intro e he
    exact (h1 e he).1
  have htopo' : ∃ pool', pool'.Perm (initBuildState req (anc ++ desc)).pool ∧
      topoOKb ((initBuildState req (anc ++ desc)).idMap.map (fun kl => kl.1)) pool' = true :=
    ⟨pool', hperm, htopo⟩
  obtain ⟨st', hst', hdet', hids', hedges'⟩ :=
    attachLoop_clean (initBuildState req (anc ++ desc)).pool.length
      (initBuildState req (anc ++ desc)) (Nat.le_refl _) hok rfl hsome htopo'
  have hloop := attachStatusesToTree_eq_loop (locateRootNode req (anc ++ desc))
  rw [hnoop] at hloop
  have hst'' : st' = attachStatusesToTree (initBuildState req (anc ++ desc)) := by
    rw [hst'] at hloop
    exact Option.some_inj.mp hloop
  have hbuild : buildThreadTree req anc desc = st'.main := by
    rw [hst'']
    show (attachStatusesToTree (locateRootNode req (anc ++ desc))).main =
      (attachStatusesToTree (initBuildState req (anc ++ desc))).main
    rw [hnoop]
  constructor
  · rw [hbuild, hids']
    simp only [initBuildState, treeStatusIds, forestStatusIds]
    simp only [← Multiset.cons_coe, ← Multiset.singleton_add]
    rfl
  · rw [hbuild, hedges']
    simp only [initBuildState, treeEdges, forestEdges, List.filterMap_nil, List.append_nil]
    rfl

theorem CleanInput_perm {req : Status} {pool₁ pool₂ : List Status} (hp : pool₁.Perm pool₂)
    (h : CleanInput req pool₁) : CleanInput req pool₂ := by
  obtain ⟨h1, ⟨pool', hpp, ht⟩, h3⟩ := h
  refine ⟨?_, ⟨pool', hpp.trans hp, ht⟩, ?_⟩
  · intro p hp2
    obtain ⟨hn, hcase⟩ := h1 p (hp.mem_iff.mpr hp2)
    refine ⟨hn, ?_⟩
    rcases hcase with hc | ⟨q, hq, hqe, hqne⟩
    · exact Or.inl hc
    · exact Or.inr ⟨q, hp.mem_iff.mp hq, hqe, hqne⟩
  · intro p hp2
    exact h3 p (hp.mem_iff.mpr hp2)

/-! ## Claim theorems settled by evaluation -/

/-- C1 (code bug): on the failing input — requested post `P` with no
parent, descendants `[A]` where `A` replies to the absent id `"M"` — the
attachment pass attaches zero posts, yet the returned tree contains **no**
`PlaceholderNode`: its status nodes are exactly `P` then `A` (the bare
status node is pushed under the root), while the `PlaceholderNode` with
message `"Missing post id M"` that lines 262-266 construct is only ever
referenced from `idMap` (modelled by `detached`) and never appears in the
tree, contradicting the claimed (and `PostTreePlaceholderNode`-documented)
behaviour that the placeholder is attached under the root. -/
theorem c1_missing_parent_placeholder_detached :
    placeholderCount (buildThreadTree exP [] [exA_M]) = 0 ∧
    treeStatusIds (buildThreadTree exP [] [exA_M]) = ["P", "A"] ∧
    phMessages (buildThreadState exP [] [exA_M]).detached = ["Missing post id M"] := by
  decide

/-- C2 (counterexample): a pool satisfying the claim's hypothesis — every
post's `in_reply_to_id` equals some other pool post's id or the requested
post's id — whose build drops post `A` from the returned tree (it is
attached to a detached placeholder), so not every post is attached as a
`StatusNode`: requested `P` (no parent), pool `[A→B, B→A]` (a reply
cycle inside the pool). -/
theorem c2_resolvable_pool_counterexample :
    (∀ p ∈ [exA_B, exB_A], p.in_reply_to_id ≠ none ∧
        (p.in_reply_to_id = some exP.id ∨
          ∃ q ∈ [exA_B, exB_A], some q.id = p.in_reply_to_id ∧ q ≠ p)) ∧
    "A" ∉ treeStatusIds (buildThreadTree exP [] [exA_B, exB_A]) := by
  decide

/-- C3 (counterexample): on the cyclic ancestor chain `P → A → B → A`
(`ancestors = [A, B]`), `buildThreadTree` does **not** fail with a
structural-invariant error: it returns this tree (root `B`, child `A`,
grandchild the highlighted `P`).  The full-build path has no
visited-twice check; the upward walk stops because each step splices the
found parent out of the pool. -/
theorem c3_cycle_returns_tree :
    buildThreadTree exP_A [exA_B, exB_A] [] =
      .status exB_A [.status exA_B [.status exP_A [] true] false] false := by
  rfl

/-- C3 (amended): for every input, cyclic chains included, the upward walk
of `locateRootNode` finishes within `pool.length` iterations (it never
loops indefinitely), and no error is raised — the full-build path simply
returns the tree built so far. -/
theorem c3_upward_walk_terminates (req : Status) (anc desc : List Status) :
    ∃ st, locateRootLoop (anc ++ desc).length req (initBuildState req (anc ++ desc)) =
      some st := by
  exact option_isSome_exists
    (locateRootLoop_isSome _ req _ (by simp [initBuildState]))

/-- C4: for every requested post and finite pools, both loops of the full
build terminate with their natural fuel (`pool.length` iterations suffice
for the root-location walk and for the attachment loop, since every
executed iteration shrinks the pool), and the attachment loop drains the
pool completely. -/
theorem c4_loops_terminate_and_drain (req : Status) (anc desc : List Status) :
    (∃ st, locateRootLoop (anc ++ desc).length req (initBuildState req (anc ++ desc)) =
        some st) ∧
    (∃ st', attachLoop (locateRootNode req (anc ++ desc)).pool.length
        (locateRootNode req (anc ++ desc)) = some st' ∧ st'.pool = []) := by
  refine ⟨option_isSome_exists (locateRootLoop_isSome _ req _ (by simp [initBuildState])), ?_⟩
  obtain ⟨st', hst⟩ := option_isSome_exists
    (attachLoop_isSome (locateRootNode req (anc ++ desc)).pool.length _ (Nat.le_refl _))
  exact ⟨st', hst, attachLoop_pool_nil _ _ _ hst⟩

/-- C5 (counterexample): the claim ranges over all inputs, but with a pool
containing two posts carrying the same id `"A"` (both replying to the
requested `P`), the returned tree wraps that id in two distinct nodes. -/
theorem c5_duplicate_id_counterexample :
    treeStatusIds (buildThreadTree exP [] [exA_P, exA_P]) = ["P", "A", "A"] ∧
    ¬ (treeStatusIds (buildThreadTree exP [] [exA_P, exA_P])).Nodup := by
  decide

/-- C8 (counterexample): two pools that are permutations of each other
(`[A→M, C→A]` and `[C→A, A→M]`, requested post `P` with no parent) yield
trees with different parent/child relationships: in the first order the
placeholder pop attaches `C` then `A` under the root (edges `P→C` and
`P→A`), in the second order `A` is popped first, `C` is then attached to
`A`'s detached placeholder and drops out of the tree, so the edge from
`"P"` to `"C"` exists only in the first tree. -/
theorem c8_permutation_counterexample :
    ([exA_M, exC_A] : List Status).Perm [exC_A, exA_M] ∧
    ("P", "C") ∈ treeEdges (buildThreadTree exP [] [exA_M, exC_A]) ∧
    ("P", "C") ∉ treeEdges (buildThreadTree exP [] [exC_A, exA_M]) := by
  exact ⟨List.Perm.swap exC_A exA_M [], by decide, by decide⟩

/-- C7: whenever the context fetch for the requested post (routed through
the reblog target when the requested post is a reblog) fails with any
message, the builder still returns a tree — a highlighted status node
wrapping the originally requested post whose only child is a placeholder
describing the failure — rather than propagating the failure. -/
theorem c7_context_failure_placeholder_root (postId msg : String) (requestedStatus : Status)
    (getStatusContext : String → Except String (List Status × List Status))
    (h : getStatusContext (postIdForContext requestedStatus) = .error msg) :
    fetchPostInfoTree postId requestedStatus getStatusContext =
      .status requestedStatus
        [.placeholder ("Failed to get context for post " ++ postId ++ ": " ++ msg) [] false]
        true := by
  unfold fetchPostInfoTree
  rw [h]

/-- Witness for C7 at a concrete failing context fetch. -/
theorem c7_context_failure_placeholder_root_witness :
    (fun _ : String => (Except.error "network error" :
        Except String (List Status × List Status))) (postIdForContext exP) =
      Except.error "network error" ∧
    fetchPostInfoTree "P" exP
        (fun _ => Except.error "network error") =
      .status exP
        [.placeholder ("Failed to get context for post " ++ "P" ++ ": " ++ "network error")
          [] false] true :=
  ⟨rfl, c7_context_failure_placeholder_root "P" "network error" exP _ rfl⟩

/-- C9: the two default presets are exactly as claimed: both start with a
`hidePost` rule conditioned on `in_reply_to_id notEqual null` followed by an
`attachLinked` rule, and `defaultFeedRules` additionally carries an
`applyLabel` rule with label `"pillbug"` conditioned on the post's
application name (`fact "application"`, path `$.name`) equalling
`"pillbug"`. -/
theorem c9_default_rule_presets :
    (defaultHomeFeedRules.map (fun r => r.action.type) = ["hidePost", "attachLinked"]) ∧
    ((defaultHomeFeedRules.map (fun r => r.conditions.all))[0]? =
      some [{ fact := "in_reply_to_id", operator := "notEqual", value := none }]) ∧
    defaultFeedRules.take 2 = defaultHomeFeedRules ∧
    defaultFeedRules.drop 2 =
      [⟨"label posts written with pillbug",
        ⟨[{ fact := "application", operator := "equal", path := some "$.name",
            value := some "pillbug" }]⟩,
        { type := "applyLabel", params := some ⟨"pillbug"⟩ }⟩] := by
  decide

/-! ## Claim theorems about clean builds -/

/-- C5 (amended): when the requested post's id and the pool posts' ids are
pairwise distinct, no post identifier appears in more than one node of the
returned tree (the build consumes each input post at most once; the single
root is the one returned `PTree` value). -/
theorem c5_distinct_ids_nodup_tree (req : Status) (anc desc : List Status)
    (h : (req.id :: (anc ++ desc).map (fun s => s.id)).Nodup) :
    (treeStatusIds (buildThreadTree req anc desc)).Nodup := by
  have hle := buildThreadTree_ids_le req anc desc
  have hK : Multiset.Nodup ↑(req.id :: (anc ++ desc).map (fun s => s.id)) :=
    Multiset.coe_nodup.mpr h
  exact Multiset.coe_nodup.mp (Multiset.nodup_of_le hle hK)

/-- Witness for C5 (amended) at a concrete distinct-id input. -/
theorem c5_distinct_ids_nodup_tree_witness :
    (exP.id :: (([] : List Status) ++ [exR_P]).map (fun s => s.id)).Nodup ∧
    (treeStatusIds (buildThreadTree exP [] [exR_P])).Nodup :=
  ⟨by decide, c5_distinct_ids_nodup_tree exP [] [exR_P] (by decide)⟩

/-- C2 (amended): when every pool post replies to another pool post or to
the requested post **and** the reply relation is acyclic, the returned tree
contains zero placeholder nodes and wraps exactly the requested post plus
every pool post (each attached as a status node). -/
theorem c2_resolvable_acyclic_no_placeholder (req : Status) (anc desc : List Status)
    (h : CleanInput req (anc ++ desc)) :
    placeholderCount (buildThreadTree req anc desc) = 0 ∧
    (treeStatusIds (buildThreadTree req anc desc)).Perm
      (req.id :: (anc ++ desc).map (fun s => s.id)) := by
  refine ⟨buildThreadTree_placeholderCount req anc desc, ?_⟩
  exact Multiset.coe_eq_coe.mp (buildThreadTree_clean_char req anc desc h).1

/-- Witness for C2 (amended): requested `P`, descendants `[R]` with `R`
replying to `P`. -/
theorem c2_resolvable_acyclic_no_placeholder_witness :
    CleanInput exP ([] ++ [exR_P]) ∧
    (placeholderCount (buildThreadTree exP [] [exR_P]) = 0 ∧
      (treeStatusIds (buildThreadTree exP [] [exR_P])).Perm
        (exP.id :: (([] : List Status) ++ [exR_P]).map (fun s => s.id))) :=
  ⟨⟨by decide, ⟨[exR_P], List.Perm.refl _, by decide⟩, by decide⟩,
    c2_resolvable_acyclic_no_placeholder exP [] [exR_P]
      ⟨by decide, ⟨[exR_P], List.Perm.refl _, by decide⟩, by decide⟩⟩

/-- C8 (amended): for resolvable, acyclic pools, permuting the pool leaves
the set of parent/child edges of the returned tree unchanged (the edge
lists are permutations of each other, hence equal as sets), even though
children order inside a node may differ. -/
theorem c8_permutation_same_edges (req : Status) (anc₁ desc₁ anc₂ desc₂ : List Status)
    (h : CleanInput req (anc₁ ++ desc₁))
    (hperm : (anc₁ ++ desc₁).Perm (anc₂ ++ desc₂)) :
    (treeEdges (buildThreadTree req anc₁ desc₁)).Perm
      (treeEdges (buildThreadTree req anc₂ desc₂)) := by
  have h2 : CleanInput req (anc₂ ++ desc₂) := CleanInput_perm hperm h
  have e1 := (buildThreadTree_clean_char req anc₁ desc₁ h).2
  have e2 := (buildThreadTree_clean_char req anc₂ desc₂ h2).2
  apply Multiset.coe_eq_coe.mp
  rw [e1, e2, Multiset.coe_eq_coe]
  exact hperm.map _

/-- Witness for C8 (amended): requested `P`, pools `[R→P, S→R]` and
`[S→R, R→P]`. -/
theorem c8_permutation_same_edges_witness :
    CleanInput exP ([exR_P, exS_R] ++ []) ∧
    ([exR_P, exS_R] ++ ([] : List Status)).Perm ([] ++ [exS_R, exR_P]) ∧
    (treeEdges (buildThreadTree exP [exR_P, exS_R] [])).Perm
      (treeEdges (buildThreadTree exP [] [exS_R, exR_P])) := by
  have hclean : CleanInput exP ([exR_P, exS_R] ++ []) :=
    ⟨by decide, ⟨[exR_P, exS_R], List.Perm.refl _, by decide⟩, by decide⟩
  have hperm : ([exR_P, exS_R] ++ ([] : List Status)).Perm ([] ++ [exS_R, exR_P]) :=
    List.Perm.swap exS_R exR_P []
  exact ⟨hclean, hperm, c8_permutation_same_edges exP [exR_P, exS_R] [] [] [exS_R, exR_P]
    hclean hperm⟩

/-! ## The incremental patch on trees with distinct ids -/

mutual
theorem attachAt_eq_self (tid : Option String) (nw : PTree) :
    ∀ (t : PTree), (∀ x ∈ treeStatusIds t, some x ≠ tid) → attachAt tid nw t = t
  | .status s cs hl => fun h => by
    have hs : ¬(some s.id = tid) := h s.id (by simp [treeStatusIds])
    have hcs := attachAtForest_eq_self tid nw cs (fun x hx => h x (by
      simp only [treeStatusIds, List.mem_cons]
      exact Or.inr hx))
    simp only [attachAt, if_neg hs, hcs]
  | .placeholder m cs hl => fun h => by
    have hcs := attachAtForest_eq_self tid nw cs (fun x hx => h x (by
      simpa only [treeStatusIds] using hx))
    simp only [attachAt, hcs]

theorem attachAtForest_eq_self (tid : Option String) (nw : PTree) :
    ∀ (cs : List PTree), (∀ x ∈ forestStatusIds cs, some x ≠ tid) →
      attachAtForest tid nw cs = cs
  | [] => fun _ => rfl
  | c :: rest => fun h => by
    have hc := attachAt_eq_self tid nw c (fun x hx => h x (by
      simp only [forestStatusIds, List.mem_append]
      exact Or.inl hx))
    have hr := attachAtForest_eq_self tid nw rest (fun x hx => h x (by
      simp only [forestStatusIds, List.mem_append]
      exact Or.inr hx))
    simp only [attachAtForest, hc, hr]
end

theorem forest_mem_decomp : ∀ (cs : List PTree) (x : String), x ∈ forestStatusIds cs →
    ∃ l c r, cs = l ++ c :: r ∧ x ∈ treeStatusIds c := by
  intro cs
  induction cs with
  | nil => intro x hx; simp [forestStatusIds] at hx
  | cons c rest ih =>
    intro x hx
    simp only [forestStatusIds, List.mem_append] at hx
    cases hx with
    | inl h => exact ⟨[], c, rest, rfl, h⟩
    | inr h =>
      obtain ⟨l, c', r, hcs, hc'⟩ := ih x h
      exact ⟨c :: l, c', r, by rw [hcs]; rfl, hc'⟩

theorem attachAtForest_append (tid : Option String) (nw : PTree) :
    ∀ (l₁ l₂ : List PTree),
      attachAtForest tid nw (l₁ ++ l₂) = attachAtForest tid nw l₁ ++ attachAtForest tid nw l₂ := by
  intro l₁ l₂
  induction l₁ with
  | nil => rfl
  | cons c rest ih => simp [attachAtForest, ih]

mutual
/-- On a tree with pairwise distinct ids, `attachAt` with a matching target
performs exactly one append: it relates the tree before and after by
`AppendOne`. -/
theorem attachAt_AppendOne (tid : Option String) (nw : PTree) :
    ∀ (t : PTree), (treeStatusIds t).Nodup → (∃ x ∈ treeStatusIds t, some x = tid) →
    AppendOne nw t (attachAt tid nw t)
  | .status s cs hl => fun hnodup hex => by
    obtain ⟨x, hx, hxt⟩ := hex
    by_cases hmatch : some s.id = tid
    · simp only [attachAt, if_pos hmatch]
      exact AppendOne.hereStatus s cs hl
    · have hxf : x ∈ forestStatusIds cs := by
        rcases (by simpa [treeStatusIds] using hx : x = s.id ∨ x ∈ forestStatusIds cs) with h | h
        · exact absurd (h ▸ hxt) hmatch
        · exact h
      have hnf : (forestStatusIds cs).Nodup := by
        have h0 := hnodup
        simp only [treeStatusIds, List.nodup_cons] at h0
        exact h0.2
      obtain ⟨l, c, r, hcs, hmid, hrec⟩ :=
        attachAtForest_AppendOne tid nw cs hnf ⟨x, hxf, hxt⟩
      simp only [attachAt, if_neg hmatch]
      rw [hmid, hcs]
      exact AppendOne.deeperStatus s hl l r c (attachAt tid nw c) hrec
  | .placeholder m cs hl => fun hnodup hex => by
    obtain ⟨x, hx, hxt⟩ := hex
    have hxf : x ∈ forestStatusIds cs := by simpa [treeStatusIds] using hx
    have hnf : (forestStatusIds cs).Nodup := by simpa [treeStatusIds] using hnodup
    obtain ⟨l, c, r, hcs, hmid, hrec⟩ :=
      attachAtForest_AppendOne tid nw cs hnf ⟨x, hxf, hxt⟩
    simp only [attachAt]
    rw [hmid, hcs]
    exact AppendOne.deeperPlaceholder m hl l r c (attachAt tid nw c) hrec

theorem attachAtForest_AppendOne (tid : Option String) (nw : PTree) :
    ∀ (cs : List PTree), (forestStatusIds cs).Nodup →
    (∃ x ∈ forestStatusIds cs, some x = tid) →
    ∃ l c r, cs = l ++ c :: r ∧
      attachAtForest tid nw cs = l ++ attachAt tid nw c :: r ∧
      AppendOne nw c (attachAt tid nw c)
  | [] => fun _ hex => by
    obtain ⟨x, hx, _⟩ := hex
    simp [forestStatusIds] at hx
  | c0 :: rest => fun hnodup hex => by
    obtain ⟨x, hx, hxt⟩ := hex
    have hn : (treeStatusIds c0 ++ forestStatusIds rest).Nodup := by
      simpa [forestStatusIds] using hnodup
    rw [List.nodup_append] at hn
    obtain ⟨hnc, hnr, hdisj⟩ := hn
    rcases (by simpa [forestStatusIds] using hx :
        x ∈ treeStatusIds c0 ∨ x ∈ forestStatusIds rest) with hxc | hxr
    · have hfr : attachAtForest tid nw rest = rest := by
        refine attachAtForest_eq_self tid nw rest ?_
        intro y hy hyt
        have hyx : y = x := Option.some_inj.mp (hyt.trans hxt.symm)
        exact hdisj hxc (hyx ▸ hy)
      refine ⟨[], c0, rest, rfl, ?_, ?_⟩
      · simp [attachAtForest, hfr]
      · exact attachAt_AppendOne tid nw c0 hnc ⟨x, hxc, hxt⟩
    · have hfc : attachAt tid nw c0 = c0 := by
        refine attachAt_eq_self tid nw c0 ?_
        intro y hy hyt
        have hyx : y = x := Option.some_inj.mp (hyt.trans hxt.symm)
        exact hdisj (hyx ▸ hy) hxr
      obtain ⟨l, c, r, hcs, hmid, hrec⟩ :=
        attachAtForest_AppendOne tid nw rest hnr ⟨x, hxr, hxt⟩
      refine ⟨c0 :: l, c, r, by rw [hcs]; rfl, ?_, hrec⟩
      simp [attachAtForest, hfc, hmid]
end

mutual
/-- Characterization of `tryAttachTo` on trees with distinct status ids
when the already-visited ids are disjoint from the tree: the walk never
raises, the updated tree is exactly `attachAt`, the success flag reports
whether some status id matches the target, and every visited id comes from
the input visited list or the tree. -/
theorem tryAttachTo_spec (nc : Status) (tid : Option String) :
    ∀ (t : PTree) (visited : List String), (treeStatusIds t).Nodup →
    (∀ x ∈ visited, x ∉ treeStatusIds t) →
    ∃ v' b, tryAttachTo nc tid t visited =
        .ok (attachAt tid (mkNewReplyNode nc) t, v', b) ∧
      (b = true ↔ ∃ x ∈ treeStatusIds t, some x = tid) ∧
      (∀ x ∈ v', x ∈ visited ∨ x ∈ treeStatusIds t)
  | .status s cs hl => fun visited hnodup hdisj => by
    have hsv : s.id ∉ visited := fun hx => hdisj s.id hx (by simp [treeStatusIds])
    by_cases hmatch : some s.id = tid
    · refine ⟨visited ++ [s.id], true, ?_, ?_, ?_⟩
      · simp only [tryAttachTo, if_neg hsv, if_pos hmatch, attachAt]
      · simp only [true_iff]
        exact ⟨s.id, by simp [treeStatusIds], hmatch⟩
      · intro x hx
        rcases List.mem_append.mp hx with h | h
        · exact Or.inl h
        · right
          simp only [List.mem_singleton] at h
          simp [treeStatusIds, h]
    · have hnodup' : (forestStatusIds cs).Nodup := by
        have h0 := hnodup
        simp only [treeStatusIds, List.nodup_cons] at h0
        exact h0.2
      have hsid_nf : s.id ∉ forestStatusIds cs := by
        have h0 := hnodup
        simp only [treeStatusIds, List.nodup_cons] at h0
        exact h0.1
      have hdisj' : ∀ x ∈ visited ++ [s.id], x ∉ forestStatusIds cs := by
        intro x hx hmem
        rcases List.mem_append.mp hx with h | h
        · exact hdisj x h (by simp [treeStatusIds, hmem])
        · simp only [List.mem_singleton] at h
          exact hsid_nf (h ▸ hmem)
      obtain ⟨v', b, heq, hiff, hsub⟩ :=
        tryAttachChildren_spec nc tid cs (visited ++ [s.id]) hnodup' hdisj'
      refine ⟨v', b, ?_, ?_, ?_⟩
      · simp only [tryAttachTo, if_neg hsv, if_neg hmatch, heq, attachAt]
      · rw [hiff]
        constructor
        · rintro ⟨x, hx, hxt⟩
          exact ⟨x, by simp [treeStatusIds, hx], hxt⟩
        · rintro ⟨x, hx, hxt⟩
          rcases (by simpa [treeStatusIds] using hx : x = s.id ∨ x ∈ forestStatusIds cs)
            with h | h
          · exact absurd (h ▸ hxt) hmatch
          · exact ⟨x, h, hxt⟩
      · intro x hx
        rcases hsub x hx with h | h
        · rcases List.mem_append.mp h with h1 | h1
          · exact Or.inl h1
          · right
            simp only [List.mem_singleton] at h1
            simp [treeStatusIds, h1]
        · right
          simp [treeStatusIds, h]
  | .placeholder m cs hl => fun visited hnodup hdisj => by
    have hnodup' : (forestStatusIds cs).Nodup := by simpa [treeStatusIds] using hnodup
    have hdisj' : ∀ x ∈ visited, x ∉ forestStatusIds cs := by
      intro x hx
      have := hdisj x hx
      simpa [treeStatusIds] using this
    obtain ⟨v', b, heq, hiff, hsub⟩ :=
      tryAttachChildren_spec nc tid cs visited hnodup' hdisj'
    refine ⟨v', b, ?_, ?_, ?_⟩
    · simp only [tryAttachTo, heq, attachAt]
    · simpa [treeStatusIds] using hiff
    · intro x hx
      rcases hsub x hx with h | h
      · exact Or.inl h
      · right
        simpa [treeStatusIds] using h

/-- Forest version of `tryAttachTo_spec`. -/
theorem tryAttachChildren_spec (nc : Status) (tid : Option String) :
    ∀ (cs : List PTree) (visited : List String), (forestStatusIds cs).Nodup →
    (∀ x ∈ visited, x ∉ forestStatusIds cs) →
    ∃ v' b, tryAttachChildren nc tid cs visited =
        .ok (attachAtForest tid (mkNewReplyNode nc) cs, v', b) ∧
      (b = true ↔ ∃ x ∈ forestStatusIds cs, some x = tid) ∧
      (∀ x ∈ v', x ∈ visited ∨ x ∈ forestStatusIds cs)
  | [] => fun visited _ _ => by
    refine ⟨visited, false, rfl, by simp [forestStatusIds], fun x hx => Or.inl hx⟩
  | c :: rest => fun visited hnodup hdisj => by
    have hn : (treeStatusIds c ++ forestStatusIds rest).Nodup := by
      simpa [forestStatusIds] using hnodup
    rw [List.nodup_append] at hn
    obtain ⟨hnc, hnr, hdisjcr⟩ := hn
    have hdc : ∀ x ∈ visited, x ∉ treeStatusIds c := fun x hx hm =>
      hdisj x hx (by simp only [forestStatusIds, List.mem_append]; exact Or.inl hm)
    obtain ⟨v1, b1, heq1, hiff1, hsub1⟩ := tryAttachTo_spec nc tid c visited hnc hdc
    have hdr : ∀ x ∈ v1, x ∉ forestStatusIds rest := by
      intro x hx hm
      rcases hsub1 x hx with h | h
      · exact hdisj x h (by simp only [forestStatusIds, List.mem_append]; exact Or.inr hm)
      · exact hdisjcr h hm
    obtain ⟨v2, b2, heq2, hiff2, hsub2⟩ := tryAttachChildren_spec nc tid rest v1 hnr hdr
    refine ⟨v2, b1 || b2, ?_, ?_, ?_⟩
    · simp only [tryAttachChildren, heq1, heq2, attachAtForest]
    · simp only [Bool.or_eq_true, hiff1, hiff2, forestStatusIds, List.mem_append]
      constructor
      · rintro (⟨x, hx, hxt⟩ | ⟨x, hx, hxt⟩)
        · exact ⟨x, Or.inl hx, hxt⟩
        · exact ⟨x, Or.inr hx, hxt⟩
      · rintro ⟨x, hx | hx, hxt⟩
        · exact Or.inl ⟨x, hx, hxt⟩
        · exact Or.inr ⟨x, hx, hxt⟩
    · intro x hx
      rcases hsub2 x hx with h | h
      · rcases hsub1 x h with h1 | h1
        · exact Or.inl h1
        · right
          simp only [forestStatusIds, List.mem_append]
          exact Or.inl h1
      · right
        simp only [forestStatusIds, List.mem_append]
        exact Or.inr h
end

/-- C6: on a tree whose status nodes carry pairwise distinct ids,
`patchNewReply` with a new post whose `in_reply_to_id` matches a node
returns the tree with exactly one new highlighted status-node child
(wrapping the new post, childless) appended at that node — this is
`attachAt`, which by definition rebuilds everything else unchanged and does
not descend into the matched node; with an `in_reply_to_id` matching no
node, the new node is appended directly under the tree root.  In both
cases the reply is never dropped. -/
theorem c6_patch_attaches_at_parent_or_root (t : PTree) (nc : Status)
    (hnodup : (treeStatusIds t).Nodup) :
    (∀ tidv, nc.in_reply_to_id = some tidv → tidv ∈ treeStatusIds t →
      patchNewReply t nc = .ok (attachAt (some tidv) (mkNewReplyNode nc) t)) ∧
    ((∀ x ∈ treeStatusIds t, some x ≠ nc.in_reply_to_id) →
      patchNewReply t nc = .ok (t.withChildren (t.children ++ [mkNewReplyNode nc]))) := by
  obtain ⟨v', b, heq, hiff, _⟩ :=
    tryAttachTo_spec nc nc.in_reply_to_id t [] hnodup (by simp)
  constructor
  · intro tidv htid hmem
    have hb : b = true := hiff.mpr ⟨tidv, hmem, by rw [htid]⟩
    simp only [patchNewReply, heq, hb, if_true]
    rw [htid]
  · intro hnone
    have hb : b = false := by
      cases hbv : b with
      | true =>
        obtain ⟨x, hx, hxt⟩ := hiff.mp hbv
        exact absurd hxt (hnone x hx)
      | false => rfl
    have hself : attachAt nc.in_reply_to_id (mkNewReplyNode nc) t = t :=
      attachAt_eq_self _ _ t hnone
    simp [patchNewReply, heq, hb, hself]

/-- Witness for C6 at the spec's example: a tree containing the node with
id `"42"` and a new post replying to `"42"`. -/
theorem c6_patch_attaches_at_parent_or_root_witness :
    (treeStatusIds exTree42).Nodup ∧
    exN42.in_reply_to_id = some "42" ∧ "42" ∈ treeStatusIds exTree42 ∧
    patchNewReply exTree42 exN42 =
      .ok (attachAt (some "42") (mkNewReplyNode exN42) exTree42) :=
  ⟨by decide, rfl, by decide,
    (c6_patch_attaches_at_parent_or_root exTree42 exN42 (by decide)).1 "42" rfl (by decide)⟩

/-- C10: a successful `patchNewReply` on a distinct-id tree changes the
tree by `AppendOne`: every pre-existing node keeps its wrapped status,
message and highlighted flag, the children of exactly one node change, and
the only change is the new highlighted status node (wrapping the new post,
childless) appended at the end of that node's children. -/
theorem c10_patch_frame (t : PTree) (nc : Status) (t' : PTree)
    (hnodup : (treeStatusIds t).Nodup)
    (hok : patchNewReply t nc = .ok t') :
    AppendOne (mkNewReplyNode nc) t t' := by
  obtain ⟨v', b, heq, hiff, _⟩ :=
    tryAttachTo_spec nc nc.in_reply_to_id t [] hnodup (by simp)
  simp only [patchNewReply, heq] at hok
  cases hbv : b with
  | true =>
    rw [hbv] at hok
    rw [if_pos rfl] at hok
    have ht' : t' = attachAt nc.in_reply_to_id (mkNewReplyNode nc) t := by
      injection hok with h
      exact h.symm
    rw [ht']
    exact attachAt_AppendOne nc.in_reply_to_id (mkNewReplyNode nc) t hnodup (hiff.mp hbv)
  | false =>
    rw [hbv] at hok
    rw [if_neg (by simp)] at hok
    have hnone : ∀ x ∈ treeStatusIds t, some x ≠ nc.in_reply_to_id := by
      intro x hx hxt
      have : b = true := hiff.mpr ⟨x, hx, hxt⟩
      rw [hbv] at this
      cases this
    have hself : attachAt nc.in_reply_to_id (mkNewReplyNode nc) t = t :=
      attachAt_eq_self _ _ t hnone
    rw [hself] at hok
    have ht' : t' = t.withChildren (t.children ++ [mkNewReplyNode nc]) := by
      injection hok with h
      exact h.symm
    rw [ht']
    cases t with
    | status s cs hl => exact AppendOne.hereStatus s cs hl
    | placeholder m cs hl => exact AppendOne.herePlaceholder m cs hl

/-- Witness for C10: patching a reply to `R` into the tree `Q → R`. -/
theorem c10_patch_frame_witness :
    (treeStatusIds exTreeQR).Nodup ∧
    patchNewReply exTreeQR exN_R =
      .ok (.status ⟨"Q", none, none⟩
        [.status ⟨"R", some "Q", none⟩ [.status exN_R [] true] false] true) ∧
    AppendOne (mkNewReplyNode exN_R) exTreeQR
      (.status ⟨"Q", none, none⟩
        [.status ⟨"R", some "Q", none⟩ [.status exN_R [] true] false] true) :=
  ⟨by decide, rfl, c10_patch_frame exTreeQR exN_R _ (by decide) rfl⟩

end Pillbug
